import Mathlib

/-!
Verification of the template-pipeline naming phase (`naming.ts`).

The development shallowly embeds the source file
`packages/compiler/src/template/pipeline/src/phases/naming.ts`.
Ops, compilation units and jobs are modelled as plain inductive data;
the in-place mutation of the TypeScript code becomes explicit state
threading (`NamingState` carries the view arena and the shared naming
counter), and every `throw` becomes an `Except.error`.  Helpers that the
source imports from elsewhere in the repository (`sanitizeIdentifier`,
`hyphenate`, the `ir` data model) are modelled from the specification and
carry a doc comment saying so.
-/

/-! ## String primitives -/

/-- Decimal digits of `n`, most significant first, computed with explicit
fuel so that the definition is structurally recursive (the fuel `n + 1`
always suffices).  This embeds the decimal rendering that a JavaScript
template literal applies to a number. -/
def natToDigitsAux : Nat → Nat → List Char
  | 0, _ => []
  | fuel + 1, n =>
    if n < 10 then [Nat.digitChar n]
    else natToDigitsAux fuel (n / 10) ++ [Nat.digitChar (n % 10)]

/-- Decimal rendering of a natural number, as a JavaScript template
literal renders a (non-negative integral) number. -/
def natRepr (n : Nat) : String :=
  ⟨natToDigitsAux (n + 1) n⟩

/-- JavaScript `String.prototype.startsWith`, on the character lists. -/
def jsStartsWith (s pre : String) : Bool :=
  pre.data.isPrefixOf s.data

/-- First index at which `pat` occurs as a contiguous sublist of `l`
(`none` when it never occurs): JavaScript `String.prototype.indexOf`,
with `none` standing for the return value `-1`. -/
def indexOfFrom : List Char → List Char → Option Nat
  | [], pat => if pat.isPrefixOf ([] : List Char) then some 0 else none
  | c :: rest, pat =>
    if pat.isPrefixOf (c :: rest) then some 0
    else (indexOfFrom rest pat).map (· + 1)

/-- JavaScript `s.replace('-', '_')` on the character list: only the
first hyphen is replaced (a string pattern in `String.prototype.replace`
replaces a single occurrence). -/
def replaceFirstHyphen : List Char → List Char
  | [] => []
  | c :: rest => if c = '-' then '_' :: rest else c :: replaceFirstHyphen rest

/-- Replacement of every hyphen by an underscore.  This is the reading
used by the specification ("tag-name hyphens are replaced with
underscores"); the source's `replace('-', '_')` only rewrites the first
one, and the two agree only after sanitization. -/
def allHyphensToUnderscores (s : String) : String :=
  ⟨s.data.map (fun c => if c = '-' then '_' else c)⟩

/-- A character that may appear in a generated identifier: an ASCII
letter, a digit, or an underscore (JavaScript's word characters). -/
def isWordChar (c : Char) : Bool :=
  c.isAlphanum || c = '_'

/-- Modelled from the spec: `sanitizeIdentifier` (imported by the source
from `parse_util`, which is not part of the sources under review).  The
spec requires every generated function and handler name to be "a valid
bare identifier (sanitized)"; the model replaces each character that may
not appear in an identifier with an underscore, character by character. -/
def sanitizeIdentifier (name : String) : String :=
  ⟨name.data.map (fun c => if isWordChar c then c else '_')⟩

/-- Hyphen insertion at every boundary where a lowercase character is
followed by an uppercase one. -/
def insertHyphens : List Char → List Char
  | [] => []
  | [c] => [c]
  | c1 :: c2 :: rest =>
    if c1.isLower && c2.isUpper then c1 :: '-' :: insertHyphens (c2 :: rest)
    else c1 :: insertHyphens (c2 :: rest)

/-- Modelled from the spec: `hyphenate` (imported by the source from
`style_parser`, which is not part of the sources under review).  The spec
describes it as converting "a camelCase-like property name into
kebab-case": a hyphen is inserted at each lower-to-upper boundary and the
result is lowercased. -/
def hyphenate (s : String) : String :=
  ⟨(insertHyphens s.data).map Char.toLower⟩

/-! ## The IR data model

Modelled from the spec: the `ir` module the source imports is not part of
the sources under review.  Only the fields the naming phase reads or
writes are carried. -/

/-- Kinds of semantic variables (`ir.SemanticVariableKind`). -/
inductive SemanticVariableKind : Type
  | context
  | identifier
  | other
deriving DecidableEq

/-- A semantic variable (`ir.SemanticVariable`): a kind, the source
identifier (meaningful for `identifier`-kind variables), and a nullable
final name (write-once). -/
structure SemanticVariable : Type where
  kind : SemanticVariableKind
  identifier : String
  name : Option String
deriving DecidableEq

/-- An expression, as far as the naming phase observes it: a variable
read (`ir.ReadVariableExpr`, carrying an xref and a nullable name) or any
other expression, which the phase never touches. -/
inductive Expr : Type
  | readVariable (xref : Nat) (name : Option String)
  | other
deriving DecidableEq

/-- An instruction ("op").  Each naming-relevant variant carries exactly
the fields the source reads or writes, plus the list of expressions that
`ir.visitExpressionsInOp` would visit inside it; every remaining op kind
is collapsed into `otherOp`, which the phase leaves untouched. -/
inductive Op : Type
  | property (name : String) (isAnimationTrigger : Bool) (exprs : List Expr)
  | hostProperty (name : String) (isAnimationTrigger : Bool) (exprs : List Expr)
  | listener (name : String) (handlerFnName : Option String) (hostListener : Bool)
      (isAnimationListener : Bool) (animationPhase : String)
      (targetSlot : Option Nat) (tag : Option String) (exprs : List Expr)
  | variableOp (xref : Nat) (varDecl : SemanticVariable) (exprs : List Expr)
  | template (xref : Nat) (slot : Option Nat) (functionNameSuffix : String) (exprs : List Expr)
  | repeaterCreate (xref : Nat) (slot : Option Nat) (functionNameSuffix : String)
      (emptyView : Option Nat) (exprs : List Expr)
  | styleProp (name : String) (exprs : List Expr)
  | classProp (name : String) (exprs : List Expr)
  | otherOp (exprs : List Expr)
deriving DecidableEq

/-- The expressions reachable inside an op (`ir.visitExpressionsInOp`). -/
def opExprs : Op → List Expr
  | .property _ _ e => e
  | .hostProperty _ _ e => e
  | .listener _ _ _ _ _ _ _ e => e
  | .variableOp _ _ e => e
  | .template _ _ _ e => e
  | .repeaterCreate _ _ _ _ e => e
  | .styleProp _ e => e
  | .classProp _ e => e
  | .otherOp e => e

/-- Replace the expressions inside an op, leaving all other fields. -/
def setOpExprs : Op → List Expr → Op
  | .property n a _, e => .property n a e
  | .hostProperty n a _, e => .hostProperty n a e
  | .listener n h hl al ph sl tg _, e => .listener n h hl al ph sl tg e
  | .variableOp x v _, e => .variableOp x v e
  | .template x s f _, e => .template x s f e
  | .repeaterCreate x s f ev _, e => .repeaterCreate x s f ev e
  | .styleProp n _, e => .styleProp n e
  | .classProp n _, e => .classProp n e
  | .otherOp _, e => .otherOp e

/-- A compilation unit ("view"): a nullable generated-function name, the
ordered instruction list, and whether the unit is a genuine view
(`unit instanceof ViewCompilationUnit` in the source). -/
structure CompilationUnit : Type where
  fnName : Option String
  ops : List Op
  isViewUnit : Bool
deriving DecidableEq

/-- A compilation job: the arena of units keyed by xref (holding the root
as well), the root's xref, the component base name, the function-name
suffix, and the compatibility flag
(`cpl.compatibility === ir.CompatibilityMode.TemplateDefinitionBuilder`
in the source, folded into a single boolean here). -/
structure CompilationJob : Type where
  rootXref : Nat
  views : List (Nat × CompilationUnit)
  componentName : String
  fnSuffix : String
  compatibility : Bool
deriving DecidableEq

/-- Lookup in an association list keyed by xref (`Map.get`). -/
def alookup {α : Type} : List (Nat × α) → Nat → Option α
  | [], _ => none
  | p :: rest, x => if p.1 = x then some p.2 else alookup rest x

/-- Replace the entry at key `x` (in place, preserving order); a missing
key is left missing. -/
def aupdate {α : Type} : List (Nat × α) → Nat → α → List (Nat × α)
  | [], _, _ => []
  | p :: rest, x, v => if p.1 = x then (p.1, v) :: rest else p :: aupdate rest x v

/-- The state threaded through the pass: the view arena (the in-place
mutated units) and the job-wide naming counter (`state.index`, shared by
reference in the source). -/
structure NamingState : Type where
  views : List (Nat × CompilationUnit)
  index : Nat
deriving DecidableEq

/-! ## The pass (from the source) -/

/-- `getVariableName` from the source: names a semantic variable once
(write-once) against the shared counter.  A `context` variable is named
`ctx_r<counter>` with the counter incremented afterwards (post-increment
in the source); an `identifier` variable is named
`<identifier>_r<counter>` and an `other` variable `_r<counter>` with the
counter incremented first (pre-increment).  A variable that already
carries a name is returned unchanged. -/
def getVariableName (v : SemanticVariable) (index : Nat) :
    String × SemanticVariable × Nat :=
  match v.name with
  | some n => (n, v, index)
  | none =>
    match v.kind with
    | .context =>
      let n := "ctx_r" ++ natRepr index
      (n, { v with name := some n }, index + 1)
    | .identifier =>
      let n := v.identifier ++ "_r" ++ natRepr (index + 1)
      (n, { v with name := some n }, index + 1)
    | .other =>
      let n := "_r" ++ natRepr (index + 1)
      (n, { v with name := some n }, index + 1)

/-- The allocation sequence abstraction used to reason about the names
`getVariableName` hands out during one run: the variables are presented
in allocation order and the counter is threaded exactly as the shared
`state.index` is. -/
def allocNames : List SemanticVariable → Nat → List String × Nat
  | [], i => ([], i)
  | v :: vs, i =>
    let r := getVariableName v i
    let rest := allocNames vs r.2.2
    (r.1 :: rest.1, rest.2)

/-- `normalizeStylePropName` from the source: hyphenate a style property
name, unless it is a CSS custom property (it starts with `--`). -/
def normalizeStylePropName (name : String) : String :=
  if jsStartsWith name "--" then name else hyphenate name

/-- `stripImportant` from the source: truncate the name at the first
occurrence of the literal `!important`, discarding the marker and
everything after it; a name without the marker is returned unchanged. -/
def stripImportant (name : String) : String :=
  match indexOfFrom name.data "!important".data with
  | some i => ⟨name.data.take i⟩
  | none => name

/-- One step of the instruction scan of `addNamesToView`: the `switch`
over the op kind.  Returns the rewritten op, the updated unit-local
variable-name table (newest entry first, so `alookup` sees the latest
binding exactly as `Map.set` does), the updated naming counter, and the
list of child recursions the op demands, as `(child xref, base name)`
pairs in the order the source performs them. -/
def nameOp (isViewUnit : Bool) (fnName baseName : String) (compatibility : Bool)
    (varNames : List (Nat × String)) (index : Nat) :
    Op → Except String (Op × List (Nat × String) × Nat × List (Nat × String))
  | .property name isAnimationTrigger e =>
    if isAnimationTrigger then
      .ok (.property ("@" ++ name) isAnimationTrigger e, varNames, index, [])
    else
      .ok (.property name isAnimationTrigger e, varNames, index, [])
  | .hostProperty name isAnimationTrigger e =>
    if isAnimationTrigger then
      .ok (.hostProperty ("@" ++ name) isAnimationTrigger e, varNames, index, [])
    else
      .ok (.hostProperty name isAnimationTrigger e, varNames, index, [])
  | .listener name handlerFnName hostListener isAnimationListener animationPhase
      targetSlot tag e =>
    match handlerFnName with
    | some h =>
      .ok (.listener name (some h) hostListener isAnimationListener animationPhase
        targetSlot tag e, varNames, index, [])
    | none =>
      match hostListener, targetSlot, tag with
      | false, none, _ => .error "Expected a slot to be assigned"
      | true, slot, tg =>
        let name1 := if isAnimationListener then "@" ++ name ++ "." ++ animationPhase else name
        let animation := if isAnimationListener then "animation" else ""
        let h := sanitizeIdentifier
          (baseName ++ "_" ++ animation ++ name1 ++ "_HostBindingHandler")
        .ok (.listener name1 (some h) true isAnimationListener animationPhase
          slot tg e, varNames, index, [])
      | false, some slot, some tg =>
        let name1 := if isAnimationListener then "@" ++ name ++ "." ++ animationPhase else name
        let animation := if isAnimationListener then "animation" else ""
        let h := sanitizeIdentifier
          (fnName ++ "_" ++ ⟨replaceFirstHyphen tg.data⟩ ++ "_" ++ animation ++ name1 ++
            "_" ++ natRepr slot ++ "_listener")
        .ok (.listener name1 (some h) false isAnimationListener animationPhase
          (some slot) (some tg) e, varNames, index, [])
      | false, some _, none =>
        .error "AssertionError: expected listener op to have a tag"
  | .variableOp xref v e =>
    let r := getVariableName v index
    .ok (.variableOp xref r.2.1 e, (xref, r.1) :: varNames, r.2.2, [])
  | .repeaterCreate xref slot functionNameSuffix emptyView e =>
    if isViewUnit = false then
      .error "AssertionError: must be compiling a component"
    else
      match slot with
      | none => .error "Expected slot to be assigned"
      | some s =>
        let emptyReqs := match emptyView with
          | some ev =>
            [(ev, baseName ++ "_" ++ (functionNameSuffix ++ "Empty") ++ "_" ++ natRepr (s + 2))]
          | none => []
        .ok (.repeaterCreate xref (some s) functionNameSuffix emptyView e, varNames, index,
          emptyReqs ++ [(xref, baseName ++ "_" ++ functionNameSuffix ++ "_" ++ natRepr (s + 1))])
  | .template xref slot functionNameSuffix e =>
    if isViewUnit = false then
      .error "AssertionError: must be compiling a component"
    else
      match slot with
      | none => .error "Expected slot to be assigned"
      | some s =>
        let suffix := if functionNameSuffix = "" then "" else "_" ++ functionNameSuffix
        .ok (.template xref (some s) functionNameSuffix e, varNames, index,
          [(xref, baseName ++ suffix ++ "_" ++ natRepr s)])
  | .styleProp name e =>
    let n1 := normalizeStylePropName name
    let n2 := if compatibility then stripImportant n1 else n1
    .ok (.styleProp n2 e, varNames, index, [])
  | .classProp name e =>
    let n1 := if compatibility then stripImportant name else name
    .ok (.classProp n1 e, varNames, index, [])
  | .otherOp e => .ok (.otherOp e, varNames, index, [])

/-- The backfill of a single expression (the callback passed to
`ir.visitExpressionsInOp` in the source): a variable read whose name is
still unset receives the name recorded for its xref in the unit-local
table, a read of an xref the table does not know is a fatal error, and
every other expression — including an already-named read — is returned
untouched. -/
def backfillExpr (varNames : List (Nat × String)) : Expr → Except String Expr
  | .readVariable xref none =>
    match alookup varNames xref with
    | none => .error ("Variable " ++ natRepr xref ++ " not yet named")
    | some n => .ok (.readVariable xref (some n))
  | .readVariable xref (some n) => .ok (.readVariable xref (some n))
  | .other => .ok .other

/-- Backfill of an expression list, stopping at the first error. -/
def backfillExprs (varNames : List (Nat × String)) : List Expr → Except String (List Expr)
  | [] => .ok []
  | e :: rest =>
    match backfillExpr varNames e with
    | .error msg => .error msg
    | .ok e' =>
      match backfillExprs varNames rest with
      | .error msg => .error msg
      | .ok rest' => .ok (e' :: rest')

/-- Backfill of every expression inside one op
(`ir.visitExpressionsInOp(op, ...)`). -/
def backfillOp (varNames : List (Nat × String)) (op : Op) : Except String Op :=
  match backfillExprs varNames (opExprs op) with
  | .error msg => .error msg
  | .ok e' => .ok (setOpExprs op e')

/-- The second traversal of `addNamesToView`: push the names assigned to
the unit's variables into every read of those variables. -/
def backfillOps (varNames : List (Nat × String)) : List Op → Except String (List Op)
  | [] => .ok []
  | op :: rest =>
    match backfillOp varNames op with
    | .error msg => .error msg
    | .ok op' =>
      match backfillOps varNames rest with
      | .error msg => .error msg
      | .ok rest' => .ok (op' :: rest')

/-- The effect of the backfill on one expression when no lookup fails:
an unnamed variable read whose xref the table knows receives the table's
name, and everything else is untouched. -/
def backfillExprPure (varNames : List (Nat × String)) : Expr → Expr
  | .readVariable x none =>
    match alookup varNames x with
    | some n => .readVariable x (some n)
    | none => .readVariable x none
  | e => e

/-- Run the child recursions one op demanded, in order. -/
def runReqs (recurse : NamingState → Nat → String → Except String NamingState) :
    NamingState → List (Nat × String) → Except String NamingState
  | st, [] => .ok st
  | st, r :: rest =>
    match recurse st r.1 r.2 with
    | .error msg => .error msg
    | .ok st' => runReqs recurse st' rest

/-- The instruction scan of `addNamesToView`: fold `nameOp` over the
unit's ops, running each op's child recursions (via `recurse`, the
continuation into `addNamesToView` at one fuel less) before the scan
moves on, exactly as the source recurses from inside the `switch`.
Returns the final state, the unit-local variable-name table, and the
rewritten ops. -/
def scanOps (recurse : NamingState → Nat → String → Except String NamingState)
    (isViewUnit : Bool) (fnName baseName : String) (compatibility : Bool) :
    NamingState → List (Nat × String) → List Op →
    Except String (NamingState × List (Nat × String) × List Op)
  | st, varNames, [] => .ok (st, varNames, [])
  | st, varNames, op :: rest =>
    match nameOp isViewUnit fnName baseName compatibility varNames st.index op with
    | .error msg => .error msg
    | .ok r =>
      match runReqs recurse { st with index := r.2.2.1 } r.2.2.2 with
      | .error msg => .error msg
      | .ok st' =>
        match scanOps recurse isViewUnit fnName baseName compatibility st' r.2.1 rest with
        | .error msg => .error msg
        | .ok rest' => .ok (rest'.1, rest'.2.1, r.1 :: rest'.2.2)

/-- `addNamesToView` from the source.  Looks the unit up in the arena
(the source receives the unit object itself; children are fetched with
`unit.job.views.get(...)!`, whose failure is modelled as an error), sets
its function name if it is still unset, scans the instructions — naming
listeners, queueing variable names, rewriting style/class names and
recursing into child units — and finally backfills the variable reads of
this unit.  The explicit fuel bounds the recursion depth; the unit tree
is acyclic, so a fuel larger than the tree depth never runs out. -/
def addNamesToView : Nat → NamingState → Nat → String → String → Bool →
    Except String NamingState
  | 0, _, _, _, _, _ => .error "Recursion limit exceeded while naming views"
  | fuel + 1, st, xref, baseName, fnSuffix, compatibility =>
    match alookup st.views xref with
    | none => .error "AssertionError: expected the view to be present"
    | some unit =>
      let f := match unit.fnName with
        | some f => f
        | none => sanitizeIdentifier (baseName ++ "_" ++ fnSuffix)
      let st1 : NamingState :=
        { st with views := aupdate st.views xref { unit with fnName := some f } }
      match scanOps (fun s x b => addNamesToView fuel s x b fnSuffix compatibility)
          unit.isViewUnit f baseName compatibility st1 [] unit.ops with
      | .error e => .error e
      | .ok r =>
        match backfillOps r.2.1 r.2.2 with
        | .error e => .error e
        | .ok ops' =>
          match alookup r.1.views xref with
          | none => .error "AssertionError: expected the view to be present"
          | some unit2 =>
            .ok { r.1 with views := aupdate r.1.views xref { unit2 with ops := ops' } }

/-- `phaseNaming` from the source: name the whole job starting at the
root, with the shared counter starting at `0`. -/
def phaseNaming (fuel : Nat) (job : CompilationJob) : Except String CompilationJob :=
  match addNamesToView fuel { views := job.views, index := 0 } job.rootXref
      job.componentName job.fnSuffix job.compatibility with
  | .error e => .error e
  | .ok st => .ok { job with views := st.views }

/-! ## Derived notions used by the theorems -/

/-- The xrefs of the child units an op refers to: a `Template` refers to
its own xref's view, a `RepeaterCreate` to the optional empty view and
then to its own xref's view (in the order the source recurses); no other
op creates a child unit. -/
def opChildren : Op → List Nat
  | .template x _ _ _ => [x]
  | .repeaterCreate x _ _ ev _ => (match ev with | some e => [e] | none => []) ++ [x]
  | _ => []

/-- The child xrefs a unit's instruction list refers to. -/
def unitChildren (u : CompilationUnit) : List Nat :=
  u.ops.flatMap opChildren

/-- `Reach views x y`: the unit `y` is reachable from the unit `x`
through `Template` / `RepeaterCreate` references in the arena `views`.
The pass visits exactly such units (when it completes). -/
inductive Reach (views : List (Nat × CompilationUnit)) : Nat → Nat → Prop
  | refl (x : Nat) : Reach views x x
  | step {x y z : Nat} {u : CompilationUnit} :
      alookup views x = some u → y ∈ unitChildren u →
      Reach views y z → Reach views x z

/-- The function name recorded for xref `y` in an arena (`none` when the
unit is absent, `some none` when present but unnamed). -/
def fnNameAt (views : List (Nat × CompilationUnit)) (y : Nat) : Option (Option String) :=
  (alookup views y).map CompilationUnit.fnName

/-- The contract a recursion continuation satisfies; `addNamesToView` at
any fuel satisfies it (proved below by induction on the fuel).  On every
successful call on unit `x` it (1) keeps the arena's domain, (2) keeps
every unit's children and view-kind, (3) never overwrites a set function
name, (4) leaves the name of the visited unit `x` set — to its old name
if it had one and to `sanitizeIdentifier (base ++ "_" ++ fnSuffix)`
otherwise, (5) does not touch units unreachable from `x`, and (6) leaves
every unit reachable from `x` with a set function name. -/
def GoodRecurse (fnSuffix : String)
    (recurse : NamingState → Nat → String → Except String NamingState) : Prop :=
  ∀ st x b st', recurse st x b = .ok st' →
    (∀ y, (alookup st'.views y).isSome = (alookup st.views y).isSome) ∧
    (∀ y u1 u2, alookup st.views y = some u1 → alookup st'.views y = some u2 →
      unitChildren u2 = unitChildren u1 ∧ u2.isViewUnit = u1.isViewUnit) ∧
    (∀ y u1 f, alookup st.views y = some u1 → u1.fnName = some f →
      ∀ u2, alookup st'.views y = some u2 → u2.fnName = some f) ∧
    (∀ u1, alookup st.views x = some u1 →
      ∃ u2, alookup st'.views x = some u2 ∧
        u2.fnName = some (match u1.fnName with
          | some f0 => f0
          | none => sanitizeIdentifier (b ++ "_" ++ fnSuffix))) ∧
    (∀ y, ¬ Reach st.views x y → alookup st'.views y = alookup st.views y) ∧
    (∀ y, Reach st.views x y → ∃ u2, alookup st'.views y = some u2 ∧ u2.fnName.isSome)

/-- A two-variable job on which the allocator hands out the same name
twice: an `identifier`-kind variable whose source identifier is `ctx`,
followed by a `context`-kind variable. -/
def jobCtxClash : CompilationJob :=
  { rootXref := 0
    views := [(0, { fnName := none
                    ops := [Op.variableOp 1 ⟨.identifier, "ctx", none⟩ [],
                            Op.variableOp 2 ⟨.context, "", none⟩ []]
                    isViewUnit := true })]
    componentName := "Comp"
    fnSuffix := "Template"
    compatibility := false }

/-- A job holding, besides the root, a unit that no `Template` or
`RepeaterCreate` op refers to. -/
def jobOrphan : CompilationJob :=
  { rootXref := 0
    views := [(0, { fnName := none, ops := [], isViewUnit := true }),
              (1, { fnName := none, ops := [], isViewUnit := true })]
    componentName := "Comp"
    fnSuffix := "Template"
    compatibility := false }

/-- The result of running the pass on `jobOrphan`: the root is named,
the unreferenced unit is left untouched. -/
def jobOrphanOut : CompilationJob :=
  { rootXref := 0
    views := [(0, { fnName := some "Comp_Template", ops := [], isViewUnit := true }),
              (1, { fnName := none, ops := [], isViewUnit := true })]
    componentName := "Comp"
    fnSuffix := "Template"
    compatibility := false }

/-! ## String lemmas -/

theorem string_eq_of_data : ∀ {a b : String}, a.data = b.data → a = b := by
  intro a b h
  cases a
  cases b
  exact congrArg String.mk h

theorem digitChar_isDigit : ∀ m, m < 10 → (Nat.digitChar m).isDigit = true := by decide

theorem digitChar_inj : ∀ a, a < 10 → ∀ b, b < 10 →
    Nat.digitChar a = Nat.digitChar b → a = b := by decide

theorem natToDigitsAux_fuel : ∀ (n f1 f2 : Nat), n < f1 → n < f2 →
    natToDigitsAux f1 n = natToDigitsAux f2 n := by
  intro n
  induction n using Nat.strong_induction_on with
  | _ n ih =>
    intro f1 f2 h1 h2
    obtain ⟨g1, rfl⟩ : ∃ g, f1 = g + 1 := ⟨f1 - 1, by omega⟩
    obtain ⟨g2, rfl⟩ : ∃ g, f2 = g + 1 := ⟨f2 - 1, by omega⟩
    by_cases hn : n < 10
    · simp [natToDigitsAux, hn]
    · have hd : n / 10 < n := Nat.div_lt_self (by omega) (by omega)
      simp only [natToDigitsAux, if_neg hn]
      rw [ih (n / 10) hd g1 g2 (by omega) (by omega)]

theorem natRepr_data_eq (n : Nat) : (natRepr n).data =
    if n < 10 then [Nat.digitChar n]
    else (natRepr (n / 10)).data ++ [Nat.digitChar (n % 10)] := by
  show natToDigitsAux (n + 1) n = _
  by_cases hn : n < 10
  · simp [natToDigitsAux, hn]
  · have hd : n / 10 < n := Nat.div_lt_self (by omega) (by omega)
    simp only [natToDigitsAux, if_neg hn]
    show natToDigitsAux n (n / 10) ++ _ = natToDigitsAux (n / 10 + 1) (n / 10) ++ _
    rw [natToDigitsAux_fuel (n / 10) n (n / 10 + 1) (by omega) (by omega)]

theorem natRepr_all_digits : ∀ n, ∀ c ∈ (natRepr n).data, c.isDigit = true := by
  intro n
  induction n using Nat.strong_induction_on with
  | _ n ih =>
    intro c hc
    rw [natRepr_data_eq] at hc
    by_cases hn : n < 10
    · rw [if_pos hn, List.mem_singleton] at hc
      exact hc ▸ digitChar_isDigit n hn
    · rw [if_neg hn, List.mem_append, List.mem_singleton] at hc
      rcases hc with hc | rfl
      · exact ih (n / 10) (Nat.div_lt_self (by omega) (by omega)) c hc
      · exact digitChar_isDigit (n % 10) (Nat.mod_lt _ (by omega))

theorem natRepr_data_ne_nil (n : Nat) : (natRepr n).data ≠ [] := by
  rw [natRepr_data_eq]
  by_cases hn : n < 10 <;> simp [hn]

theorem natRepr_injective : ∀ a b, natRepr a = natRepr b → a = b := by
  intro a
  induction a using Nat.strong_induction_on with
  | _ a ih =>
    intro b h
    have hd : (natRepr a).data = (natRepr b).data := congrArg String.data h
    rw [natRepr_data_eq a] at hd
    rw [natRepr_data_eq b] at hd
    by_cases ha : a < 10 <;> by_cases hb : b < 10
    · rw [if_pos ha, if_pos hb] at hd
      exact digitChar_inj a ha b hb (List.singleton_injective hd)
    · rw [if_pos ha, if_neg hb] at hd
      have hlen := congrArg List.length hd
      simp only [List.length_singleton, List.length_append] at hlen
      have hpos := List.length_pos.mpr (natRepr_data_ne_nil (b / 10))
      omega
    · rw [if_neg ha, if_pos hb] at hd
      have hlen := congrArg List.length hd
      simp only [List.length_singleton, List.length_append] at hlen
      have hpos := List.length_pos.mpr (natRepr_data_ne_nil (a / 10))
      omega
    · rw [if_neg ha, if_neg hb] at hd
      have hsp := List.append_inj' hd (by simp)
      have h1 : a / 10 = b / 10 :=
        ih (a / 10) (Nat.div_lt_self (by omega) (by omega)) (b / 10)
          (string_eq_of_data hsp.1)
      have h2 : a % 10 = b % 10 := by
        have := List.singleton_injective hsp.2
        exact digitChar_inj _ (Nat.mod_lt _ (by omega)) _ (Nat.mod_lt _ (by omega)) this
      omega

theorem takeWhile_all_append_cons {α : Type} {p : α → Bool} {xs : List α} {y : α}
    {ys : List α} (h : ∀ x ∈ xs, p x = true) (hy : p y = false) :
    (xs ++ y :: ys).takeWhile p = xs := by
  induction xs with
  | nil => simp [List.takeWhile_cons, hy]
  | cons z zs ih =>
    simp only [List.mem_cons] at h
    simp [List.takeWhile_cons, h z (Or.inl rfl), ih (fun x hx => h x (Or.inr hx))]

theorem digit_suffix_extract (l d : List Char) (hd : ∀ c ∈ d, c.isDigit = true) :
    ((l ++ '_' :: 'r' :: d).reverse.takeWhile Char.isDigit).reverse = d := by
  have h1 : (l ++ '_' :: 'r' :: d).reverse = d.reverse ++ 'r' :: '_' :: l.reverse := by
    simp
  have h2 : (d.reverse ++ 'r' :: '_' :: l.reverse).takeWhile Char.isDigit = d.reverse :=
    takeWhile_all_append_cons (fun c hc => hd c (List.mem_reverse.mp hc)) (by decide)
  rw [h1, h2, List.reverse_reverse]

theorem rname_data {a : String} {m : Nat} :
    (a ++ "_r" ++ natRepr m).data = a.data ++ '_' :: 'r' :: (natRepr m).data := by
  simp [String.data_append]

theorem rname_num_inj {a b : String} {m n : Nat}
    (h : a ++ "_r" ++ natRepr m = b ++ "_r" ++ natRepr n) : m = n := by
  have hdata : a.data ++ '_' :: 'r' :: (natRepr m).data
      = b.data ++ '_' :: 'r' :: (natRepr n).data := by
    rw [← rname_data, ← rname_data, h]
  have hm := digit_suffix_extract a.data (natRepr m).data (natRepr_all_digits m)
  have hn := digit_suffix_extract b.data (natRepr n).data (natRepr_all_digits n)
  rw [hdata] at hm
  exact natRepr_injective m n (string_eq_of_data (hm.symm.trans hn))

theorem rname_stem_inj {a b : String} {n : Nat}
    (h : a ++ "_r" ++ natRepr n = b ++ "_r" ++ natRepr n) : a = b := by
  have hdata : a.data ++ ('_' :: 'r' :: (natRepr n).data)
      = b.data ++ ('_' :: 'r' :: (natRepr n).data) := by
    rw [← rname_data, ← rname_data, h]
  exact string_eq_of_data (List.append_cancel_right hdata)

/-! ## Allocator lemmas -/

theorem allocNames_mem :
    ∀ (vs : List SemanticVariable) (i : Nat),
      (∀ v ∈ vs, v.name = none) →
      (∀ v ∈ vs, v.kind = SemanticVariableKind.identifier → v.identifier ≠ "ctx") →
      ∀ m ∈ (allocNames vs i).1,
        (∃ u, i ≤ u ∧ m = "ctx" ++ "_r" ++ natRepr u) ∨
        (∃ p u, i + 1 ≤ u ∧ p ≠ "ctx" ∧ m = p ++ "_r" ++ natRepr u) := by
  intro vs
  induction vs with
  | nil =>
    intro i _ _ m hm
    simp [allocNames] at hm
  | cons v rest ih =>
    intro i hfresh hctx m hm
    have hv : v.name = none := hfresh v (by simp)
    have hfresh' : ∀ w ∈ rest, w.name = none := fun w hw => hfresh w (by simp [hw])
    have hctx' : ∀ w ∈ rest, w.kind = SemanticVariableKind.identifier → w.identifier ≠ "ctx" :=
      fun w hw => hctx w (by simp [hw])
    rcases hk : v.kind with _ | _ | _
    · rw [show allocNames (v :: rest) i =
          (("ctx_r" ++ natRepr i) :: (allocNames rest (i + 1)).1,
            (allocNames rest (i + 1)).2) by
        simp [allocNames, getVariableName, hv, hk]] at hm
      rcases List.mem_cons.mp hm with rfl | hm'
      · exact Or.inl ⟨i, Nat.le_refl i, rfl⟩
      · rcases ih (i + 1) hfresh' hctx' m hm' with ⟨u, hu, hme⟩ | ⟨p, u, hu, hp, hme⟩
        · exact Or.inl ⟨u, by omega, hme⟩
        · exact Or.inr ⟨p, u, by omega, hp, hme⟩
    · rw [show allocNames (v :: rest) i =
          ((v.identifier ++ "_r" ++ natRepr (i + 1)) :: (allocNames rest (i + 1)).1,
            (allocNames rest (i + 1)).2) by
        simp [allocNames, getVariableName, hv, hk]] at hm
      rcases List.mem_cons.mp hm with rfl | hm'
      · exact Or.inr ⟨v.identifier, i + 1, Nat.le_refl _, hctx v (by simp) hk, rfl⟩
      · rcases ih (i + 1) hfresh' hctx' m hm' with ⟨u, hu, hme⟩ | ⟨p, u, hu, hp, hme⟩
        · exact Or.inl ⟨u, by omega, hme⟩
        · exact Or.inr ⟨p, u, by omega, hp, hme⟩
    · rw [show allocNames (v :: rest) i =
          (("" ++ "_r" ++ natRepr (i + 1)) :: (allocNames rest (i + 1)).1,
            (allocNames rest (i + 1)).2) by
        simp [allocNames, getVariableName, hv, hk]] at hm
      rcases List.mem_cons.mp hm with rfl | hm'
      · exact Or.inr ⟨"", i + 1, Nat.le_refl _, by decide, rfl⟩
      · rcases ih (i + 1) hfresh' hctx' m hm' with ⟨u, hu, hme⟩ | ⟨p, u, hu, hp, hme⟩
        · exact Or.inl ⟨u, by omega, hme⟩
        · exact Or.inr ⟨p, u, by omega, hp, hme⟩

theorem allocNames_nodup :
    ∀ (vs : List SemanticVariable) (i : Nat),
      (∀ v ∈ vs, v.name = none) →
      (∀ v ∈ vs, v.kind = SemanticVariableKind.identifier → v.identifier ≠ "ctx") →
      ((allocNames vs i).1).Nodup := by
  intro vs
  induction vs with
  | nil =>
    intro i _ _
    simp [allocNames]
  | cons v rest ih =>
    intro i hfresh hctx
    have hv : v.name = none := hfresh v (by simp)
    have hfresh' : ∀ w ∈ rest, w.name = none := fun w hw => hfresh w (by simp [hw])
    have hctx' : ∀ w ∈ rest, w.kind = SemanticVariableKind.identifier → w.identifier ≠ "ctx" :=
      fun w hw => hctx w (by simp [hw])
    rcases hk : v.kind with _ | _ | _
    · rw [show allocNames (v :: rest) i =
          (("ctx_r" ++ natRepr i) :: (allocNames rest (i + 1)).1,
            (allocNames rest (i + 1)).2) by
        simp [allocNames, getVariableName, hv, hk]]
      refine List.nodup_cons.mpr ⟨?_, ih (i + 1) hfresh' hctx'⟩
      intro hmem
      rcases allocNames_mem rest (i + 1) hfresh' hctx' _ hmem with
        ⟨u, hu, hme⟩ | ⟨p, u, hu, _, hme⟩
      · have hme' : "ctx" ++ "_r" ++ natRepr i = "ctx" ++ "_r" ++ natRepr u := hme
        have : i = u := rname_num_inj hme'
        omega
      · have hme' : "ctx" ++ "_r" ++ natRepr i = p ++ "_r" ++ natRepr u := hme
        have : i = u := rname_num_inj hme'
        omega
    · rw [show allocNames (v :: rest) i =
          ((v.identifier ++ "_r" ++ natRepr (i + 1)) :: (allocNames rest (i + 1)).1,
            (allocNames rest (i + 1)).2) by
        simp [allocNames, getVariableName, hv, hk]]
      refine List.nodup_cons.mpr ⟨?_, ih (i + 1) hfresh' hctx'⟩
      intro hmem
      rcases allocNames_mem rest (i + 1) hfresh' hctx' _ hmem with
        ⟨u, hu, hme⟩ | ⟨p, u, hu, _, hme⟩
      · have hnum : i + 1 = u := rname_num_inj hme
        subst hnum
        exact hctx v (by simp) hk (rname_stem_inj hme)
      · have : i + 1 = u := rname_num_inj hme
        omega
    · rw [show allocNames (v :: rest) i =
          (("" ++ "_r" ++ natRepr (i + 1)) :: (allocNames rest (i + 1)).1,
            (allocNames rest (i + 1)).2) by
        simp [allocNames, getVariableName, hv, hk]]
      refine List.nodup_cons.mpr ⟨?_, ih (i + 1) hfresh' hctx'⟩
      intro hmem
      rcases allocNames_mem rest (i + 1) hfresh' hctx' _ hmem with
        ⟨u, hu, hme⟩ | ⟨p, u, hu, _, hme⟩
      · have hnum : i + 1 = u := rname_num_inj hme
        subst hnum
        have : ("" : String) = "ctx" := rname_stem_inj hme
        exact absurd this (by decide)
      · have : i + 1 = u := rname_num_inj hme
        omega

/-- C1, counterexample: the allocated names are not pairwise distinct.
In the job `jobCtxClash`, an `identifier`-kind variable whose source
identifier is `"ctx"` is allocated first (pre-increment gives `ctx_r1`)
and a `context`-kind variable second (post-increment also gives
`ctx_r1`): two distinct variables assigned a name during one run of
`phaseNaming` receive the same name string. -/
theorem c1_names_clash :
    (phaseNaming 4 jobCtxClash).map (fun j =>
        (alookup j.views 0).map (fun u => u.ops.map (fun op =>
          match op with
          | Op.variableOp _ v _ => v.name
          | _ => none)))
      = .ok (some [some "ctx_r1", some "ctx_r1"]) ∧
    (allocNames [⟨.identifier, "ctx", none⟩, ⟨.context, "", none⟩] 0).1
      = ["ctx_r1", "ctx_r1"] ∧
    ¬ (["ctx_r1", "ctx_r1"] : List String).Nodup :=
  ⟨rfl, rfl, by decide⟩

/-- C1 (amended): across one run, over every sequence of allocations
mixing `Context`, `Identifier` and `Other` kinds, the names handed out by
`getVariableName` to fresh (unnamed) variables are pairwise distinct —
provided no `Identifier`-kind variable carries the source identifier
`"ctx"`.  (Without that proviso the claim fails: see the counterexample,
where an `Identifier` allocation for `"ctx"` and a later `Context`
allocation both produce `ctx_r1`.) -/
theorem c1_names_unique (vs : List SemanticVariable) (i : Nat)
    (hfresh : ∀ v ∈ vs, v.name = none)
    (hctx : ∀ v ∈ vs, v.kind = SemanticVariableKind.identifier → v.identifier ≠ "ctx") :
    ((allocNames vs i).1).Nodup :=
  allocNames_nodup vs i hfresh hctx

/-- C1, witness: the amended theorem applied to a concrete mixed
allocation sequence. -/
theorem c1_names_unique_holds :
    ((∀ v ∈ ([⟨.context, "", none⟩, ⟨.identifier, "x", none⟩, ⟨.other, "", none⟩] :
        List SemanticVariable), v.name = none) ∧
      (∀ v ∈ ([⟨.context, "", none⟩, ⟨.identifier, "x", none⟩, ⟨.other, "", none⟩] :
        List SemanticVariable),
        v.kind = SemanticVariableKind.identifier → v.identifier ≠ "ctx")) ∧
    ((allocNames [⟨.context, "", none⟩, ⟨.identifier, "x", none⟩, ⟨.other, "", none⟩] 0).1).Nodup :=
  ⟨⟨by decide, by decide⟩,
    c1_names_unique [⟨.context, "", none⟩, ⟨.identifier, "x", none⟩, ⟨.other, "", none⟩] 0
      (by decide) (by decide)⟩

/-- C5: the Variable Name Allocator contract.  On a variable with a null
name it assigns `ctx_r<counter>` (post-increment) for `Context` kind,
`<identifier>_r<counter incremented first>` for `Identifier` kind, and
`_r<counter incremented first>` for any other kind; on a variable whose
name is already set it returns that name and leaves both the variable and
the counter unchanged. -/
theorem c5_getVariableName_contract (v : SemanticVariable) (i : Nat) :
    (v.name = none → v.kind = SemanticVariableKind.context →
      getVariableName v i =
        ("ctx_r" ++ natRepr i, { v with name := some ("ctx_r" ++ natRepr i) }, i + 1)) ∧
    (v.name = none → v.kind = SemanticVariableKind.identifier →
      getVariableName v i =
        (v.identifier ++ "_r" ++ natRepr (i + 1),
          { v with name := some (v.identifier ++ "_r" ++ natRepr (i + 1)) }, i + 1)) ∧
    (v.name = none → v.kind = SemanticVariableKind.other →
      getVariableName v i =
        ("_r" ++ natRepr (i + 1), { v with name := some ("_r" ++ natRepr (i + 1)) }, i + 1)) ∧
    (∀ n, v.name = some n → getVariableName v i = (n, v, i)) := by
  refine ⟨?_, ?_, ?_, ?_⟩
  · intro hn hk
    simp [getVariableName, hn, hk]
  · intro hn hk
    simp [getVariableName, hn, hk]
  · intro hn hk
    simp [getVariableName, hn, hk]
  · intro n hn
    simp [getVariableName, hn]

/-- C5, witness: the contract applied at counter `5` to one fresh
variable of each kind and to an already-named variable. -/
theorem c5_getVariableName_contract_holds :
    getVariableName ⟨.context, "", none⟩ 5 =
      ("ctx_r" ++ natRepr 5, ⟨.context, "", some ("ctx_r" ++ natRepr 5)⟩, 5 + 1) ∧
    getVariableName ⟨.identifier, "item", none⟩ 5 =
      ("item" ++ "_r" ++ natRepr (5 + 1), ⟨.identifier, "item", some ("item" ++ "_r" ++ natRepr (5 + 1))⟩, 5 + 1) ∧
    getVariableName ⟨.other, "", none⟩ 5 =
      ("_r" ++ natRepr (5 + 1), ⟨.other, "", some ("_r" ++ natRepr (5 + 1))⟩, 5 + 1) ∧
    getVariableName ⟨.context, "", some "kept"⟩ 5 = ("kept", ⟨.context, "", some "kept"⟩, 5) :=
  ⟨(c5_getVariableName_contract ⟨.context, "", none⟩ 5).1 rfl rfl,
    (c5_getVariableName_contract ⟨.identifier, "item", none⟩ 5).2.1 rfl rfl,
    (c5_getVariableName_contract ⟨.other, "", none⟩ 5).2.2.1 rfl rfl,
    (c5_getVariableName_contract ⟨.context, "", some "kept"⟩ 5).2.2.2 "kept" rfl⟩

/-- C9: an animation-trigger `Property` or `HostProperty` binding has `@`
prepended to its name unconditionally on every run of the scan, with no
write-once guard: one application maps `n` to `"@" ++ n`, a second maps
that to `"@@" ++ n` — unlike function, handler and variable names, this
renaming is not idempotent. -/
theorem c9_animation_renaming_not_idempotent (iv : Bool) (f b : String) (c : Bool)
    (vn : List (Nat × String)) (i : Nat) (n : String) (e : List Expr) :
    nameOp iv f b c vn i (.property n true e) = .ok (.property ("@" ++ n) true e, vn, i, []) ∧
    nameOp iv f b c vn i (.hostProperty n true e)
      = .ok (.hostProperty ("@" ++ n) true e, vn, i, []) ∧
    nameOp iv f b c vn i (.property ("@" ++ n) true e)
      = .ok (.property ("@@" ++ n) true e, vn, i, []) ∧
    nameOp iv f b c vn i (.hostProperty ("@" ++ n) true e)
      = .ok (.hostProperty ("@@" ++ n) true e, vn, i, []) := by
  have h2 : "@" ++ ("@" ++ n) = "@@" ++ n := by
    rw [← String.append_assoc]
    exact congrArg (fun s => s ++ n) (by rfl)
  refine ⟨?_, ?_, ?_, ?_⟩ <;> simp [nameOp, h2]

/-- C10: for a view listener (no pre-set handler name, not a host
listener) with an assigned slot, the handler-name computation
dereferences the op's tag with a non-null assertion (`op.tag!`): the
embedding errors when the tag is absent and succeeds whenever a tag is
present, so a non-null tag is an unstated precondition of the pass for
view listeners. -/
theorem c10_listener_tag_precondition (iv : Bool) (f b : String) (c : Bool)
    (vn : List (Nat × String)) (i : Nat) (nm ph : String) (al : Bool) (s : Nat)
    (e : List Expr) :
    nameOp iv f b c vn i (.listener nm none false al ph (some s) none e)
      = .error "AssertionError: expected listener op to have a tag" ∧
    ∀ t, (nameOp iv f b c vn i (.listener nm none false al ph (some s) (some t) e)).isOk = true := by
  constructor
  · simp [nameOp]
  · intro t
    simp [nameOp, Except.isOk, Except.toBool]

theorem sanitizeIdentifier_append (a b : String) :
    sanitizeIdentifier (a ++ b) = sanitizeIdentifier a ++ sanitizeIdentifier b := by
  apply string_eq_of_data
  simp [sanitizeIdentifier, String.data_append]

theorem san_replaceFirstHyphen (l : List Char) :
    (replaceFirstHyphen l).map (fun c => if isWordChar c then c else '_')
      = l.map (fun c => if isWordChar c then c else '_') := by
  induction l with
  | nil => rfl
  | cons c rest ih =>
    by_cases hc : c = '-'
    · subst hc
      simp [replaceFirstHyphen, isWordChar]
    · simp [replaceFirstHyphen, hc, ih]

theorem san_allHyphens (l : List Char) :
    (l.map (fun c => if c = '-' then '_' else c)).map (fun c => if isWordChar c then c else '_')
      = l.map (fun c => if isWordChar c then c else '_') := by
  induction l with
  | nil => rfl
  | cons c rest ih =>
    simp only [List.map_cons]
    rw [ih]
    congr 1
    by_cases hc : c = '-'
    · subst hc
      decide
    · rw [if_neg hc]

theorem sanitize_replaceFirst_eq_all (t : String) :
    sanitizeIdentifier ⟨replaceFirstHyphen t.data⟩
      = sanitizeIdentifier (allHyphensToUnderscores t) := by
  apply string_eq_of_data
  simp only [sanitizeIdentifier, allHyphensToUnderscores]
  rw [san_replaceFirstHyphen, san_allHyphens]

/-- C2: for a view listener with no pre-set handler name, not a host
listener, not an animation listener, with an assigned slot and a tag, the
assigned handler name equals the sanitization of
`<unitFnName>_<tag with every hyphen replaced by an underscore>_<eventName>_<slot>_listener`.
The source's `replace('-', '_')` only rewrites the first hyphen, but
sanitization maps the remaining hyphens to underscores as well, so the
all-hyphens reading holds for the final name; the concrete conjuncts
exercise a one-hyphen and a two-hyphen tag. -/
theorem c2_listener_handler_name (iv : Bool) (f b : String) (c : Bool)
    (vn : List (Nat × String)) (i : Nat) (nm ph t : String) (s : Nat) (e : List Expr) :
    nameOp iv f b c vn i (.listener nm none false false ph (some s) (some t) e)
      = .ok (.listener nm
          (some (sanitizeIdentifier (f ++ "_" ++ allHyphensToUnderscores t ++ "_" ++ nm
            ++ "_" ++ natRepr s ++ "_listener")))
          false false ph (some s) (some t) e, vn, i, []) ∧
    nameOp true "Comp_Template" "Comp" false [] 0
        (.listener "click" none false false "" (some 3) (some "my-el") [])
      = .ok (.listener "click" (some "Comp_Template_my_el_click_3_listener")
          false false "" (some 3) (some "my-el") [], [], 0, []) ∧
    nameOp true "Comp_Template" "Comp" false [] 0
        (.listener "click" none false false "" (some 3) (some "my-long-el") [])
      = .ok (.listener "click" (some "Comp_Template_my_long_el_click_3_listener")
          false false "" (some 3) (some "my-long-el") [], [], 0, []) := by
  refine ⟨?_, rfl, rfl⟩
  simp only [nameOp]
  simp [sanitizeIdentifier_append, sanitize_replaceFirst_eq_all, String.append_assoc,
    String.append_empty]

/-- C3: a `RepeaterCreate` op in a genuine view with an assigned slot `s`
demands the child recursions in this order: first (when it declares an
empty view) into the empty view with base
`<parentBase>_<suffix>Empty_<s+2>`, and always into the primary view with
base `<parentBase>_<suffix>_<s+1>`; at `s = 5` the empty-branch base ends
in `_7` and the primary-branch base ends in `_6`. -/
theorem c3_repeater_recursion_bases (f b : String) (c : Bool) (vn : List (Nat × String))
    (i : Nat) (x s : Nat) (suf : String) (ev : Option Nat) (e : List Expr) :
    nameOp true f b c vn i (.repeaterCreate x (some s) suf ev e)
      = .ok (.repeaterCreate x (some s) suf ev e, vn, i,
          (match ev with
            | some ev1 => [(ev1, b ++ "_" ++ (suf ++ "Empty") ++ "_" ++ natRepr (s + 2))]
            | none => []) ++ [(x, b ++ "_" ++ suf ++ "_" ++ natRepr (s + 1))]) ∧
    (∀ ev1, nameOp true f b c vn i (.repeaterCreate x (some 5) suf (some ev1) e)
      = .ok (.repeaterCreate x (some 5) suf (some ev1) e, vn, i,
          [(ev1, (b ++ "_" ++ (suf ++ "Empty")) ++ "_7"), (x, (b ++ "_" ++ suf) ++ "_6")])) := by
  constructor
  · cases ev with
    | none => rfl
    | some ev1 => rfl
  · intro ev1
    have h7 : ("_" : String) ++ natRepr 7 = "_7" := rfl
    have h7e : ("Empty_" : String) ++ natRepr 7 = "Empty_7" := rfl
    have h6 : ("_" : String) ++ natRepr 6 = "_6" := rfl
    simp only [nameOp]
    simp [String.append_assoc, h7, h7e, h6]

/-- C8: style/class normalization.  A `StyleProp` name is hyphenated to
kebab-case unless it starts with `--` (then returned unchanged); in
compatibility mode the normalized `StyleProp` name and every `ClassProp`
name are truncated at the first occurrence of `!important`; outside
compatibility mode a `ClassProp` name is untouched.  Concretely,
`fontSize` maps to `font-size`, `--my-var` is unchanged, and
`color!important` truncates to `color`. -/
theorem c8_style_class_normalization (iv : Bool) (f b : String)
    (vn : List (Nat × String)) (i : Nat) (nm : String) (e : List Expr) :
    nameOp iv f b true vn i (.styleProp nm e)
      = .ok (.styleProp (stripImportant (normalizeStylePropName nm)) e, vn, i, []) ∧
    nameOp iv f b false vn i (.styleProp nm e)
      = .ok (.styleProp (normalizeStylePropName nm) e, vn, i, []) ∧
    nameOp iv f b true vn i (.classProp nm e)
      = .ok (.classProp (stripImportant nm) e, vn, i, []) ∧
    nameOp iv f b false vn i (.classProp nm e)
      = .ok (.classProp nm e, vn, i, []) ∧
    (jsStartsWith nm "--" = true → normalizeStylePropName nm = nm) ∧
    normalizeStylePropName "fontSize" = "font-size" ∧
    normalizeStylePropName "--my-var" = "--my-var" ∧
    stripImportant "color!important" = "color" := by
  refine ⟨rfl, rfl, rfl, rfl, ?_, by decide, by decide, by decide⟩
  intro h
  simp [normalizeStylePropName, h]

/-- C8, witness: the custom-property pass-through conjunct discharged at
the concrete name `--my-var`. -/
theorem c8_style_class_normalization_holds :
    jsStartsWith "--my-var" "--" = true ∧ normalizeStylePropName "--my-var" = "--my-var" :=
  ⟨by decide,
    (c8_style_class_normalization true "" "" [] 0 "--my-var" []).2.2.2.2.1 (by decide)⟩

theorem scanOps_append (recurse : NamingState → Nat → String → Except String NamingState)
    (iv : Bool) (f b : String) (c : Bool) :
    ∀ (l1 l2 : List Op) (st : NamingState) (vn : List (Nat × String)) (st1 : NamingState)
      (vn1 : List (Nat × String)) (ops1 : List Op),
      scanOps recurse iv f b c st vn l1 = .ok (st1, vn1, ops1) →
      scanOps recurse iv f b c st vn (l1 ++ l2)
        = (scanOps recurse iv f b c st1 vn1 l2).map (fun r => (r.1, r.2.1, ops1 ++ r.2.2)) := by
  intro l1
  induction l1 with
  | nil =>
    intro l2 st vn st1 vn1 ops1 h
    simp only [scanOps, Except.ok.injEq, Prod.mk.injEq] at h
    obtain ⟨rfl, rfl, rfl⟩ := h
    simp only [List.nil_append]
    cases hres : scanOps recurse iv f b c st vn l2 <;> simp [Except.map]
  | cons op rest ih =>
    intro l2 st vn st1 vn1 ops1 h
    rw [scanOps] at h
    rw [List.cons_append, scanOps]
    cases hr : nameOp iv f b c vn st.index op with
    | error msg => simp [hr] at h
    | ok r0 =>
      simp only [hr] at h ⊢
      cases hs : runReqs recurse { st with index := r0.2.2.1 } r0.2.2.2 with
      | error msg => simp [hs] at h
      | ok st' =>
        simp only [hs] at h ⊢
        cases ht : scanOps recurse iv f b c st' r0.2.1 rest with
        | error msg => simp [ht] at h
        | ok t =>
          simp only [ht, Except.ok.injEq, Prod.mk.injEq] at h
          obtain ⟨rfl, rfl, rfl⟩ := h
          rw [ih l2 st' r0.2.1 t.1 t.2.1 t.2.2 (by rw [ht])]
          cases hres : scanOps recurse iv f b c t.1 t.2.1 l2 <;> simp [Except.map]

/-- C6: a `Listener` op with no pre-set handler name, `hostListener`
false and a null slot aborts the scan with the slot-unassigned error
before any later op of the unit is processed: however the instruction
list continues after the failing op, the scan of the whole list returns
the error (the result does not depend on the ops after the failing one,
so no names are committed past the throw), and `addNamesToView` on a unit
whose ops reach such a listener returns the same error. -/
theorem c6_listener_missing_slot
    (recurse : NamingState → Nat → String → Except String NamingState)
    (iv : Bool) (f b : String) (c : Bool) (l1 l2 : List Op) (st : NamingState)
    (vn : List (Nat × String)) (st1 : NamingState) (vn1 : List (Nat × String))
    (ops1 : List Op) (nm : String) (al : Bool) (ph : String) (tg : Option String)
    (e : List Expr)
    (h : scanOps recurse iv f b c st vn l1 = .ok (st1, vn1, ops1)) :
    scanOps recurse iv f b c st vn
        (l1 ++ (Op.listener nm none false al ph none tg e) :: l2)
      = .error "Expected a slot to be assigned" ∧
    (∀ fuel st0 xref bn suf u, alookup st0.views xref = some u →
      u.ops = (Op.listener nm none false al ph none tg e) :: l2 →
      addNamesToView (fuel + 1) st0 xref bn suf c
        = .error "Expected a slot to be assigned") := by
  have hbadscan : ∀ (rec : NamingState → Nat → String → Except String NamingState)
      (iv2 : Bool) (f2 b2 : String) (st2 : NamingState) (vn2 : List (Nat × String)),
      scanOps rec iv2 f2 b2 c st2 vn2 ((Op.listener nm none false al ph none tg e) :: l2)
        = .error "Expected a slot to be assigned" := by
    intro rec iv2 f2 b2 st2 vn2
    rfl
  constructor
  · rw [scanOps_append recurse iv f b c l1 _ st vn st1 vn1 ops1 h]
    rw [hbadscan]
    rfl
  · intro fuel st0 xref bn suf u hl hops
    rw [addNamesToView]
    simp only [hl, hops, hbadscan]

/-- C6, witness: the theorem applied to a concrete scan prefix made of a
single inert op, with an empty suffix after the failing listener. -/
theorem c6_listener_missing_slot_holds :
    scanOps (fun s _ _ => .ok s) true "F" "B" false { views := [], index := 0 } []
        [Op.otherOp []]
      = .ok ({ views := [], index := 0 }, [], [Op.otherOp []]) ∧
    scanOps (fun s _ _ => .ok s) true "F" "B" false { views := [], index := 0 } []
        ([Op.otherOp []] ++ (Op.listener "click" none false false "" none none []) :: [])
      = .error "Expected a slot to be assigned" :=
  ⟨rfl,
    (c6_listener_missing_slot (fun s _ _ => .ok s) true "F" "B" false [Op.otherOp []] []
      { views := [], index := 0 } [] { views := [], index := 0 } [] [Op.otherOp []]
      "click" false "" none [] rfl).1⟩

theorem getVariableName_stores (v : SemanticVariable) (i : Nat) :
    ((getVariableName v i).2.1).name = some ((getVariableName v i).1) := by
  rcases hv : v.name with _ | n
  · rcases hk : v.kind with _ | _ | _ <;> simp [getVariableName, hv, hk]
  · simp [getVariableName, hv]

theorem backfillExpr_ok_pure (vn : List (Nat × String)) (ex : Expr)
    (h : ∀ x, ex = Expr.readVariable x none → (alookup vn x).isSome = true) :
    backfillExpr vn ex = .ok (backfillExprPure vn ex) := by
  match ex with
  | .readVariable x none =>
    rcases Option.isSome_iff_exists.mp (h x rfl) with ⟨n, hn⟩
    simp [backfillExpr, backfillExprPure, hn]
  | .readVariable x (some n) => rfl
  | .other => rfl

theorem backfillExpr_isOk (vn : List (Nat × String)) (ex : Expr) :
    (backfillExpr vn ex).isOk = true
      ↔ ∀ x, ex = Expr.readVariable x none → (alookup vn x).isSome = true := by
  match ex with
  | .readVariable x none =>
    cases hn : alookup vn x with
    | none => simp [backfillExpr, hn, Except.isOk, Except.toBool]
    | some n => simp [backfillExpr, hn, Except.isOk, Except.toBool]
  | .readVariable x (some n) => simp [backfillExpr, Except.isOk, Except.toBool]
  | .other => simp [backfillExpr, Except.isOk, Except.toBool]

theorem backfillExprs_ok (vn : List (Nat × String)) :
    ∀ l : List Expr,
      (∀ x, Expr.readVariable x none ∈ l → (alookup vn x).isSome = true) →
      backfillExprs vn l = .ok (l.map (backfillExprPure vn)) := by
  intro l
  induction l with
  | nil => intro _; rfl
  | cons ex rest ih =>
    intro hl
    rw [backfillExprs]
    rw [backfillExpr_ok_pure vn ex (fun x hx => hl x (hx ▸ List.mem_cons_self ex rest))]
    rw [ih (fun x hx => hl x (List.mem_cons_of_mem _ hx))]
    rfl

theorem backfillExprs_isOk_eq (vn : List (Nat × String)) :
    ∀ l : List Expr,
      (backfillExprs vn l).isOk = l.all (fun ex => (backfillExpr vn ex).isOk) := by
  intro l
  induction l with
  | nil => rfl
  | cons ex rest ih =>
    rw [backfillExprs, List.all_cons]
    cases hex : backfillExpr vn ex with
    | error msg => rfl
    | ok e' =>
      cases hrest : backfillExprs vn rest with
      | error msg => rw [hrest] at ih; exact ih
      | ok rest' => rw [hrest] at ih; exact ih

theorem backfillExprs_isOk (vn : List (Nat × String)) (l : List Expr) :
    (backfillExprs vn l).isOk = true
      ↔ ∀ x, Expr.readVariable x none ∈ l → (alookup vn x).isSome = true := by
  rw [backfillExprs_isOk_eq, List.all_eq_true]
  constructor
  · intro hall x hx
    exact (backfillExpr_isOk vn _).mp (hall _ hx) x rfl
  · intro hmem ex hex
    exact (backfillExpr_isOk vn ex).mpr (fun x hx => hmem x (hx ▸ hex))

theorem backfillOp_ok (vn : List (Nat × String)) (op : Op)
    (h : ∀ x, Expr.readVariable x none ∈ opExprs op → (alookup vn x).isSome = true) :
    backfillOp vn op = .ok (setOpExprs op ((opExprs op).map (backfillExprPure vn))) := by
  rw [backfillOp, backfillExprs_ok vn (opExprs op) h]

theorem backfillOp_isOk (vn : List (Nat × String)) (op : Op) :
    (backfillOp vn op).isOk = (backfillExprs vn (opExprs op)).isOk := by
  rw [backfillOp]
  cases h : backfillExprs vn (opExprs op) <;> simp [Except.isOk, Except.toBool]

theorem backfillOps_ok (vn : List (Nat × String)) :
    ∀ ops : List Op,
      (∀ op ∈ ops, ∀ x, Expr.readVariable x none ∈ opExprs op → (alookup vn x).isSome = true) →
      backfillOps vn ops
        = .ok (ops.map (fun op => setOpExprs op ((opExprs op).map (backfillExprPure vn)))) := by
  intro ops
  induction ops with
  | nil => intro _; rfl
  | cons op rest ih =>
    intro hl
    rw [backfillOps]
    rw [backfillOp_ok vn op (hl op (List.mem_cons_self op rest))]
    rw [ih (fun op2 h2 => hl op2 (List.mem_cons_of_mem _ h2))]
    rfl

theorem backfillOps_isOk_eq (vn : List (Nat × String)) :
    ∀ ops : List Op,
      (backfillOps vn ops).isOk = ops.all (fun op => (backfillOp vn op).isOk) := by
  intro ops
  induction ops with
  | nil => rfl
  | cons op rest ih =>
    rw [backfillOps, List.all_cons]
    cases hop : backfillOp vn op with
    | error msg => rfl
    | ok op' =>
      cases hrest : backfillOps vn rest with
      | error msg => rw [hrest] at ih; exact ih
      | ok rest' => rw [hrest] at ih; exact ih

theorem backfillOps_isOk (vn : List (Nat × String)) (ops : List Op) :
    (backfillOps vn ops).isOk = true
      ↔ ∀ op ∈ ops, ∀ x, Expr.readVariable x none ∈ opExprs op →
          (alookup vn x).isSome = true := by
  rw [backfillOps_isOk_eq, List.all_eq_true]
  constructor
  · intro hall op hop x hx
    have h1 := hall op hop
    rw [backfillOp_isOk] at h1
    exact (backfillExprs_isOk vn (opExprs op)).mp h1 x hx
  · intro hmem op hop
    rw [backfillOp_isOk]
    exact (backfillExprs_isOk vn (opExprs op)).mpr (fun x hx => hmem op hop x hx)

theorem nameOp_table (iv : Bool) (f b : String) (c : Bool) (vn : List (Nat × String))
    (i : Nat) (op : Op) (r : Op × List (Nat × String) × Nat × List (Nat × String))
    (h : nameOp iv f b c vn i op = .ok r) :
    ∀ x n, alookup r.2.1 x = some n →
      alookup vn x = some n ∨ ∃ v e2, r.1 = Op.variableOp x v e2 ∧ v.name = some n := by
  match op with
  | .property nm t e =>
    simp only [nameOp] at h
    split at h <;> (injection h with h2; subst h2; exact fun x n hx => Or.inl hx)
  | .hostProperty nm t e =>
    simp only [nameOp] at h
    split at h <;> (injection h with h2; subst h2; exact fun x n hx => Or.inl hx)
  | .listener nm hfn host al ph slot tg e =>
    simp only [nameOp] at h
    split at h
    · injection h with h2; subst h2; exact fun x n hx => Or.inl hx
    · split at h
      · simp at h
      · injection h with h2; subst h2; exact fun x n hx => Or.inl hx
      · injection h with h2; subst h2; exact fun x n hx => Or.inl hx
      · simp at h
  | .variableOp x0 v0 e0 =>
    simp only [nameOp, Except.ok.injEq] at h
    subst h
    intro x n hx
    simp only [alookup] at hx
    by_cases hx0 : x0 = x
    · rw [if_pos hx0] at hx
      right
      refine ⟨(getVariableName v0 i).2.1, e0, by rw [hx0], ?_⟩
      rw [getVariableName_stores]
      rw [Option.some_inj.mp hx]
    · rw [if_neg hx0] at hx
      exact Or.inl hx
  | .repeaterCreate x0 slot suf ev e =>
    simp only [nameOp] at h
    split at h
    · simp at h
    · split at h
      · simp at h
      · injection h with h2; subst h2; exact fun x n hx => Or.inl hx
  | .template x0 slot suf e =>
    simp only [nameOp] at h
    split at h
    · simp at h
    · split at h
      · simp at h
      · injection h with h2; subst h2; exact fun x n hx => Or.inl hx
  | .styleProp nm e =>
    simp only [nameOp] at h
    injection h with h2; subst h2; exact fun x n hx => Or.inl hx
  | .classProp nm e =>
    simp only [nameOp] at h
    injection h with h2; subst h2; exact fun x n hx => Or.inl hx
  | .otherOp e =>
    simp only [nameOp] at h
    injection h with h2; subst h2; exact fun x n hx => Or.inl hx

theorem scanOps_table (recurse : NamingState → Nat → String → Except String NamingState)
    (iv : Bool) (f b : String) (c : Bool) :
    ∀ (ops : List Op) (st : NamingState) (vn : List (Nat × String)) (st2 : NamingState)
      (vn2 : List (Nat × String)) (ops2 : List Op),
      scanOps recurse iv f b c st vn ops = .ok (st2, vn2, ops2) →
      ∀ x n, alookup vn2 x = some n →
        alookup vn x = some n ∨ ∃ v e2, Op.variableOp x v e2 ∈ ops2 ∧ v.name = some n := by
  intro ops
  induction ops with
  | nil =>
    intro st vn st2 vn2 ops2 h x n hx
    simp only [scanOps, Except.ok.injEq, Prod.mk.injEq] at h
    obtain ⟨rfl, rfl, rfl⟩ := h
    exact Or.inl hx
  | cons op rest ih =>
    intro st vn st2 vn2 ops2 h x n hx
    rw [scanOps] at h
    cases hr : nameOp iv f b c vn st.index op with
    | error msg => simp [hr] at h
    | ok r0 =>
      simp only [hr] at h
      cases hs : runReqs recurse { st with index := r0.2.2.1 } r0.2.2.2 with
      | error msg => simp [hs] at h
      | ok st' =>
        simp only [hs] at h
        cases ht : scanOps recurse iv f b c st' r0.2.1 rest with
        | error msg => simp [ht] at h
        | ok t =>
          simp only [ht, Except.ok.injEq, Prod.mk.injEq] at h
          obtain ⟨rfl, rfl, rfl⟩ := h
          rcases ih st' r0.2.1 t.1 t.2.1 t.2.2 (by rw [ht]) x n hx with
            hold | ⟨v, e2, hin, hname⟩
          · rcases nameOp_table iv f b c vn st.index op r0 hr x n hold with
              h1 | ⟨v, e2, heq, hname⟩
            · exact Or.inl h1
            · exact Or.inr ⟨v, e2, by rw [← heq]; exact List.mem_cons_self _ _, hname⟩
          · exact Or.inr ⟨v, e2, List.mem_cons_of_mem _ hin, hname⟩

/-- C4: the backfill traversal.  Given the unit-local table, (1) whenever
every unnamed variable read refers to an xref the table knows, the
traversal succeeds and maps every op to itself with each unnamed read
renamed to its table entry and every already-named read (and every other
expression) untouched; (2) it succeeds if and only if no op holds an
unnamed read of an xref absent from the table (so an error is raised
exactly when some unnamed read's xref is missing); (3) named reads pass
through unchanged, and an unnamed read of a known xref receives exactly
the table's name; and (4) the table that the instruction scan feeds the
backfill maps each xref either to an entry it already had before the scan
or to the final (post-assignment) name stored in a `Variable` declaration
op of the scanned unit, so resolved reads carry their declaration's
name. -/
theorem c4_backfill_resolves (vn : List (Nat × String)) :
    (∀ ops : List Op,
      (∀ op ∈ ops, ∀ x, Expr.readVariable x none ∈ opExprs op →
        (alookup vn x).isSome = true) →
      backfillOps vn ops = .ok (ops.map (fun op =>
        setOpExprs op ((opExprs op).map (backfillExprPure vn))))) ∧
    (∀ ops : List Op,
      (backfillOps vn ops).isOk = true ↔
        ∀ op ∈ ops, ∀ x, Expr.readVariable x none ∈ opExprs op →
          (alookup vn x).isSome = true) ∧
    (∀ x n, backfillExprPure vn (.readVariable x (some n)) = .readVariable x (some n)) ∧
    (∀ x n, alookup vn x = some n →
      backfillExprPure vn (.readVariable x none) = .readVariable x (some n)) ∧
    (∀ (recurse : NamingState → Nat → String → Except String NamingState)
      (iv : Bool) (f b : String) (c : Bool) (ops : List Op) (st : NamingState)
      (vn0 : List (Nat × String)) (st2 : NamingState) (vn2 : List (Nat × String))
      (ops2 : List Op),
      scanOps recurse iv f b c st vn0 ops = .ok (st2, vn2, ops2) →
      ∀ x n, alookup vn2 x = some n →
        alookup vn0 x = some n ∨ ∃ v e2, Op.variableOp x v e2 ∈ ops2 ∧ v.name = some n) := by
  refine ⟨backfillOps_ok vn, fun ops => backfillOps_isOk vn ops, fun x n => rfl, ?_, ?_⟩
  · intro x n hn
    simp [backfillExprPure, hn]
  · intro recurse iv f b c ops st vn0 st2 vn2 ops2 h
    exact scanOps_table recurse iv f b c ops st vn0 st2 vn2 ops2 h

/-- C4, witness: the success conjunct applied to a concrete unit whose
single op reads the only variable recorded in the table. -/
theorem c4_backfill_resolves_holds :
    (∀ op ∈ [Op.otherOp [Expr.readVariable 1 none]],
      ∀ x, Expr.readVariable x none ∈ opExprs op →
        (alookup [(1, "ctx_r0")] x).isSome = true) ∧
    backfillOps [(1, "ctx_r0")] [Op.otherOp [Expr.readVariable 1 none]]
      = .ok ([Op.otherOp [Expr.readVariable 1 none]].map
          (fun op => setOpExprs op ((opExprs op).map (backfillExprPure [(1, "ctx_r0")])))) := by
  have hhyp : ∀ op ∈ [Op.otherOp [Expr.readVariable 1 none]],
      ∀ x, Expr.readVariable x none ∈ opExprs op →
        (alookup [(1, "ctx_r0")] x).isSome = true := by
    intro op hop x hx
    rw [List.mem_singleton] at hop
    subst hop
    rw [opExprs, List.mem_singleton] at hx
    injection hx with h1 h2
    subst h1
    decide
  exact ⟨hhyp, (c4_backfill_resolves [(1, "ctx_r0")]).1 _ hhyp⟩

/-! ## Arena and reachability lemmas -/

theorem alookup_aupdate {α : Type} :
    ∀ (l : List (Nat × α)) (x : Nat) (u : α) (y : Nat),
      alookup (aupdate l x u) y
        = if x = y then (alookup l x).map (fun _ => u) else alookup l y := by
  intro l
  induction l with
  | nil =>
    intro x u y
    by_cases hxy : x = y <;> simp [aupdate, alookup, hxy]
  | cons p rest ih =>
    intro x u y
    obtain ⟨k, v⟩ := p
    by_cases hkx : k = x
    · subst hkx
      by_cases hxy : k = y
      · subst hxy
        simp [aupdate, alookup]
      · simp [aupdate, alookup, hxy]
    · by_cases hky : k = y
      · subst hky
        have hxy : ¬ x = k := fun hh => hkx hh.symm
        simp [aupdate, alookup, hkx, hxy]
      · simp [aupdate, alookup, hkx, hky, ih]

theorem opChildren_setOpExprs (op : Op) (e : List Expr) :
    opChildren (setOpExprs op e) = opChildren op := by
  cases op <;> rfl

theorem backfillOps_children (vn : List (Nat × String)) :
    ∀ (ops ops' : List Op), backfillOps vn ops = .ok ops' →
      ops'.flatMap opChildren = ops.flatMap opChildren := by
  intro ops
  induction ops with
  | nil =>
    intro ops' h
    simp only [backfillOps, Except.ok.injEq] at h
    subst h
    rfl
  | cons op rest ih =>
    intro ops' h
    rw [backfillOps] at h
    cases hop : backfillOp vn op with
    | error msg => simp [hop] at h
    | ok op' =>
      simp only [hop] at h
      cases hrest : backfillOps vn rest with
      | error msg => simp [hrest] at h
      | ok rest' =>
        simp only [hrest, Except.ok.injEq] at h
        subst h
        have hop' : opChildren op' = opChildren op := by
          rw [backfillOp] at hop
          cases hexprs : backfillExprs vn (opExprs op) with
          | error msg => rw [hexprs] at hop; simp at hop
          | ok e' =>
            rw [hexprs] at hop
            injection hop with hop2
            rw [← hop2, opChildren_setOpExprs]
        simp [List.flatMap_cons, hop', ih rest' hrest]

theorem nameOp_children (iv : Bool) (f b : String) (c : Bool) (vn : List (Nat × String))
    (i : Nat) (op : Op) (r : Op × List (Nat × String) × Nat × List (Nat × String))
    (h : nameOp iv f b c vn i op = .ok r) :
    opChildren r.1 = opChildren op ∧ r.2.2.2.map Prod.fst = opChildren op := by
  match op with
  | .property nm t e =>
    simp only [nameOp] at h
    split at h <;> (injection h with h2; subst h2; exact ⟨rfl, rfl⟩)
  | .hostProperty nm t e =>
    simp only [nameOp] at h
    split at h <;> (injection h with h2; subst h2; exact ⟨rfl, rfl⟩)
  | .listener nm hfn host al ph slot tg e =>
    simp only [nameOp] at h
    split at h
    · injection h with h2; subst h2; exact ⟨rfl, rfl⟩
    · split at h
      · simp at h
      · injection h with h2; subst h2; exact ⟨rfl, rfl⟩
      · injection h with h2; subst h2; exact ⟨rfl, rfl⟩
      · simp at h
  | .variableOp x0 v0 e0 =>
    simp only [nameOp, Except.ok.injEq] at h
    subst h
    exact ⟨rfl, rfl⟩
  | .repeaterCreate x0 slot suf ev e =>
    simp only [nameOp] at h
    split at h
    · simp at h
    · split at h
      · simp at h
      · injection h with h2
        subst h2
        refine ⟨rfl, ?_⟩
        cases ev <;> rfl
  | .template x0 slot suf e =>
    simp only [nameOp] at h
    split at h
    · simp at h
    · split at h
      · simp at h
      · injection h with h2
        subst h2
        exact ⟨rfl, rfl⟩
  | .styleProp nm e =>
    simp only [nameOp] at h
    injection h with h2; subst h2; exact ⟨rfl, rfl⟩
  | .classProp nm e =>
    simp only [nameOp] at h
    injection h with h2; subst h2; exact ⟨rfl, rfl⟩
  | .otherOp e =>
    simp only [nameOp] at h
    injection h with h2; subst h2; exact ⟨rfl, rfl⟩

theorem reach_transfer (vs1 vs2 : List (Nat × CompilationUnit))
    (hD : ∀ y, (alookup vs2 y).isSome = (alookup vs1 y).isSome)
    (hK : ∀ y u1 u2, alookup vs1 y = some u1 → alookup vs2 y = some u2 →
      unitChildren u2 = unitChildren u1 ∧ u2.isViewUnit = u1.isViewUnit) :
    ∀ x y, Reach vs1 x y → Reach vs2 x y := by
  intro x y h
  induction h with
  | refl z => exact Reach.refl z
  | step hu hc hr ih =>
    rename_i xx yy zz uu
    have hsome : (alookup vs2 xx).isSome = true := by
      rw [hD, hu]
      rfl
    rcases Option.isSome_iff_exists.mp hsome with ⟨u2, hu2⟩
    have hch := (hK xx uu u2 hu hu2).1
    exact Reach.step hu2 (by rw [hch]; exact hc) ih

theorem runReqs_good (suf : String)
    (recurse : NamingState → Nat → String → Except String NamingState)
    (hrec : GoodRecurse suf recurse) :
    ∀ (reqs : List (Nat × String)) (st st' : NamingState),
      runReqs recurse st reqs = .ok st' →
      (∀ y, (alookup st'.views y).isSome = (alookup st.views y).isSome) ∧
      (∀ y u1 u2, alookup st.views y = some u1 → alookup st'.views y = some u2 →
        unitChildren u2 = unitChildren u1 ∧ u2.isViewUnit = u1.isViewUnit) ∧
      (∀ y u1 g, alookup st.views y = some u1 → u1.fnName = some g →
        ∀ u2, alookup st'.views y = some u2 → u2.fnName = some g) ∧
      (∀ y, (∀ cx ∈ reqs.map Prod.fst, ¬ Reach st.views cx y) →
        alookup st'.views y = alookup st.views y) ∧
      (∀ cx ∈ reqs.map Prod.fst, ∀ y, Reach st.views cx y →
        ∃ u2, alookup st'.views y = some u2 ∧ u2.fnName.isSome = true) := by
  intro reqs
  induction reqs with
  | nil =>
    intro st st' h
    simp only [runReqs, Except.ok.injEq] at h
    subst h
    refine ⟨fun y => rfl, ?_, ?_, fun y _ => rfl, ?_⟩
    · intro y u1 u2 h1 h2
      rw [h1] at h2
      injection h2 with h2
      subst h2
      exact ⟨rfl, rfl⟩
    · intro y u1 g h1 hg u2 h2
      rw [h1] at h2
      injection h2 with h2
      subst h2
      exact hg
    · intro cx hcx
      simp at hcx
  | cons req rest ih =>
    intro st st' h
    rw [runReqs] at h
    cases hr : recurse st req.1 req.2 with
    | error msg => simp [hr] at h
    | ok stm =>
      simp only [hr] at h
      obtain ⟨hD1, hK1, hN1, _, hL1, hR1⟩ := hrec st req.1 req.2 stm hr
      obtain ⟨hD2, hK2, hN12, hL2, hR2⟩ := ih stm st' h
      have transferUp : ∀ cx y, Reach st.views cx y → Reach stm.views cx y :=
        reach_transfer st.views stm.views hD1 hK1
      have transferDown : ∀ cx y, Reach stm.views cx y → Reach st.views cx y := by
        refine reach_transfer stm.views st.views (fun y => (hD1 y).symm) ?_
        intro y u1 u2 h1 h2
        obtain ⟨hch, hv⟩ := hK1 y u2 u1 h2 h1
        exact ⟨hch.symm, hv.symm⟩
      have getMid : ∀ y u1, alookup st.views y = some u1 →
          ∃ um, alookup stm.views y = some um := by
        intro y u1 h1
        have : (alookup stm.views y).isSome = true := by
          rw [hD1 y, h1]
          rfl
        exact Option.isSome_iff_exists.mp this
      refine ⟨fun y => (hD2 y).trans (hD1 y), ?_, ?_, ?_, ?_⟩
      · intro y u1 u3 h1 h3
        obtain ⟨um, hm⟩ := getMid y u1 h1
        obtain ⟨hc1, hv1⟩ := hK1 y u1 um h1 hm
        obtain ⟨hc2, hv2⟩ := hK2 y um u3 hm h3
        exact ⟨hc2.trans hc1, hv2.trans hv1⟩
      · intro y u1 g h1 hg u3 h3
        obtain ⟨um, hm⟩ := getMid y u1 h1
        have hmg := hN1 y u1 g h1 hg um hm
        exact hN12 y um g hm hmg u3 h3
      · intro y hall
        simp only [List.map_cons, List.mem_cons] at hall
        have hst1 : alookup stm.views y = alookup st.views y :=
          hL1 y (hall req.1 (Or.inl rfl))
        have hst2 : alookup st'.views y = alookup stm.views y := by
          refine hL2 y ?_
          intro cx hcx hcontra
          exact hall cx (Or.inr hcx) (transferDown cx y hcontra)
        exact hst2.trans hst1
      · intro cx hcx y hreach
        simp only [List.map_cons, List.mem_cons] at hcx
        rcases hcx with rfl | hcx
        · obtain ⟨um, hm, hname⟩ := hR1 y hreach
          rcases Option.isSome_iff_exists.mp hname with ⟨g, hg⟩
          have : (alookup st'.views y).isSome = true := by
            rw [hD2 y, hm]
            rfl
          rcases Option.isSome_iff_exists.mp this with ⟨u3, h3⟩
          have := hN12 y um g hm hg u3 h3
          exact ⟨u3, h3, by rw [this]; rfl⟩
        · rcases List.mem_map.mp hcx with ⟨pr, hpr, rfl⟩
          exact hR2 pr.1 (List.mem_map_of_mem Prod.fst hpr) y (transferUp pr.1 y hreach)

theorem scanOps_good (suf : String) (compat : Bool)
    (recurse : NamingState → Nat → String → Except String NamingState)
    (hrec : GoodRecurse suf recurse) (iv : Bool) (f b : String) :
    ∀ (ops : List Op) (st : NamingState) (vn : List (Nat × String))
      (st2 : NamingState) (vn2 : List (Nat × String)) (ops2 : List Op),
      scanOps recurse iv f b compat st vn ops = .ok (st2, vn2, ops2) →
      (∀ y, (alookup st2.views y).isSome = (alookup st.views y).isSome) ∧
      (∀ y u1 u2, alookup st.views y = some u1 → alookup st2.views y = some u2 →
        unitChildren u2 = unitChildren u1 ∧ u2.isViewUnit = u1.isViewUnit) ∧
      (∀ y u1 g, alookup st.views y = some u1 → u1.fnName = some g →
        ∀ u2, alookup st2.views y = some u2 → u2.fnName = some g) ∧
      (ops2.flatMap opChildren = ops.flatMap opChildren) ∧
      (∀ y, (∀ cx ∈ ops.flatMap opChildren, ¬ Reach st.views cx y) →
        alookup st2.views y = alookup st.views y) ∧
      (∀ cx ∈ ops.flatMap opChildren, ∀ y, Reach st.views cx y →
        ∃ u2, alookup st2.views y = some u2 ∧ u2.fnName.isSome = true) := by
  intro ops
  induction ops with
  | nil =>
    intro st vn st2 vn2 ops2 h
    simp only [scanOps, Except.ok.injEq, Prod.mk.injEq] at h
    obtain ⟨rfl, rfl, rfl⟩ := h
    refine ⟨fun y => rfl, ?_, ?_, rfl, fun y _ => rfl, ?_⟩
    · intro y u1 u2 h1 h2
      rw [h1] at h2
      injection h2 with h2
      subst h2
      exact ⟨rfl, rfl⟩
    · intro y u1 g h1 hg u2 h2
      rw [h1] at h2
      injection h2 with h2
      subst h2
      exact hg
    · intro cx hcx
      simp at hcx
  | cons op rest ih =>
    intro st vn st2 vn2 ops2 h
    rw [scanOps] at h
    cases hr : nameOp iv f b compat vn st.index op with
    | error msg => simp [hr] at h
    | ok r0 =>
      simp only [hr] at h
      cases hs : runReqs recurse { st with index := r0.2.2.1 } r0.2.2.2 with
      | error msg => simp [hs] at h
      | ok stm =>
        simp only [hs] at h
        cases ht : scanOps recurse iv f b compat stm r0.2.1 rest with
        | error msg => simp [ht] at h
        | ok t =>
          simp only [ht, Except.ok.injEq, Prod.mk.injEq] at h
          obtain ⟨rfl, rfl, rfl⟩ := h
          obtain ⟨hch_op, hreq_fst⟩ :=
            nameOp_children iv f b compat vn st.index op r0 hr
          obtain ⟨hD1, hK1, hN1, hL1, hR1⟩ := runReqs_good suf recurse hrec
            r0.2.2.2 { st with index := r0.2.2.1 } stm hs
          obtain ⟨hD2, hK2, hN12, hch2, hL2, hR2⟩ :=
            ih stm r0.2.1 t.1 t.2.1 t.2.2 (by rw [ht])
          rw [hreq_fst] at hL1 hR1
          have transferUp : ∀ cx y, Reach st.views cx y → Reach stm.views cx y :=
            reach_transfer st.views stm.views hD1 hK1
          have transferDown : ∀ cx y, Reach stm.views cx y → Reach st.views cx y := by
            refine reach_transfer stm.views st.views (fun y => (hD1 y).symm) ?_
            intro y u1 u2 h1 h2
            obtain ⟨hch, hv⟩ := hK1 y u2 u1 h2 h1
            exact ⟨hch.symm, hv.symm⟩
          have getMid : ∀ y u1, alookup st.views y = some u1 →
              ∃ um, alookup stm.views y = some um := by
            intro y u1 h1
            have : (alookup stm.views y).isSome = true := by
              rw [hD1 y]
              show (alookup st.views y).isSome = true
              rw [h1]
              rfl
            exact Option.isSome_iff_exists.mp this
          refine ⟨fun y => (hD2 y).trans (hD1 y), ?_, ?_, ?_, ?_, ?_⟩
          · intro y u1 u3 h1 h3
            obtain ⟨um, hm⟩ := getMid y u1 h1
            obtain ⟨hc1, hv1⟩ := hK1 y u1 um h1 hm
            obtain ⟨hc2, hv2⟩ := hK2 y um u3 hm h3
            exact ⟨hc2.trans hc1, hv2.trans hv1⟩
          · intro y u1 g h1 hg u3 h3
            obtain ⟨um, hm⟩ := getMid y u1 h1
            have hmg := hN1 y u1 g h1 hg um hm
            exact hN12 y um g hm hmg u3 h3
          · rw [List.flatMap_cons, List.flatMap_cons, hch_op, hch2]
          · intro y hall
            simp only [List.flatMap_cons, List.mem_append] at hall
            have hst1 : alookup stm.views y = alookup st.views y :=
              hL1 y (fun cx hcx => hall cx (Or.inl hcx))
            have hst2 : alookup t.1.views y = alookup stm.views y := by
              refine hL2 y ?_
              intro cx hcx hcontra
              exact hall cx (Or.inr hcx) (transferDown cx y hcontra)
            exact hst2.trans hst1
          · intro cx hcx y hreach
            simp only [List.flatMap_cons, List.mem_append] at hcx
            rcases hcx with hcx | hcx
            · obtain ⟨um, hm, hname⟩ := hR1 cx hcx y hreach
              rcases Option.isSome_iff_exists.mp hname with ⟨g, hg⟩
              have : (alookup t.1.views y).isSome = true := by
                rw [hD2 y, hm]
                rfl
              rcases Option.isSome_iff_exists.mp this with ⟨u3, h3⟩
              have := hN12 y um g hm hg u3 h3
              exact ⟨u3, h3, by rw [this]; rfl⟩
            · exact hR2 cx hcx y (transferUp cx y hreach)

theorem addNamesToView_good (suf : String) (compat : Bool) :
    ∀ fuel, GoodRecurse suf (fun st x b => addNamesToView fuel st x b suf compat) := by
  intro fuel
  induction fuel with
  | zero =>
    intro st x b st' h
    exact absurd h (by simp [addNamesToView])
  | succ fuel ih =>
    intro st x b st' h
    change addNamesToView (fuel + 1) st x b suf compat = Except.ok st' at h
    rw [addNamesToView] at h
    cases hl : alookup st.views x with
    | none => simp [hl] at h
    | some u =>
      simp only [hl] at h
      split at h
      · simp at h
      · rename_i r hscan
        split at h
        · simp at h
        · rename_i ops3 hbf
          split at h
          · simp at h
          · rename_i u2 hlook2
            injection h with h
            set F := (match u.fnName with
              | some f => f
              | none => sanitizeIdentifier (b ++ "_" ++ suf)) with hF
            set uF : CompilationUnit :=
              { fnName := some F, ops := u.ops, isViewUnit := u.isViewUnit } with huF
            set u3 : CompilationUnit :=
              { fnName := u2.fnName, ops := ops3, isViewUnit := u2.isViewUnit } with hu3
            have hviews : st'.views = aupdate r.1.views x u3 := by
              rw [← h]
            obtain ⟨hD2, hK2, hN2, hch2, hL2, hR2⟩ :=
              scanOps_good suf compat _ ih u.isViewUnit F b u.ops
                { views := aupdate st.views x uF, index := st.index } [] r.1 r.2.1 r.2.2 hscan
            have hD2' : ∀ y, (alookup r.1.views y).isSome
                = (alookup (aupdate st.views x uF) y).isSome := hD2
            have hK2' : ∀ y w1 w2, alookup (aupdate st.views x uF) y = some w1 →
                alookup r.1.views y = some w2 →
                unitChildren w2 = unitChildren w1 ∧ w2.isViewUnit = w1.isViewUnit := hK2
            have hN2' : ∀ y w1 g, alookup (aupdate st.views x uF) y = some w1 →
                w1.fnName = some g →
                ∀ w2, alookup r.1.views y = some w2 → w2.fnName = some g := hN2
            have hch2' : r.2.2.flatMap opChildren = u.ops.flatMap opChildren := hch2
            have hL2' : ∀ y, (∀ cx ∈ u.ops.flatMap opChildren,
                ¬ Reach (aupdate st.views x uF) cx y) →
                alookup r.1.views y = alookup (aupdate st.views x uF) y := hL2
            have hR2' : ∀ cx ∈ u.ops.flatMap opChildren, ∀ y,
                Reach (aupdate st.views x uF) cx y →
                ∃ w2, alookup r.1.views y = some w2 ∧ w2.fnName.isSome = true := hR2
            have hV1 : ∀ y, alookup (aupdate st.views x uF) y
                = if x = y then some uF else alookup st.views y := by
              intro y
              rw [alookup_aupdate]
              by_cases hxy : x = y
              · rw [if_pos hxy, if_pos hxy, hl]
                rfl
              · rw [if_neg hxy, if_neg hxy]
            have hD0 : ∀ y, (alookup (aupdate st.views x uF) y).isSome
                = (alookup st.views y).isSome := by
              intro y
              rw [hV1 y]
              by_cases hxy : x = y
              · rw [if_pos hxy, ← hxy, hl]
                rfl
              · rw [if_neg hxy]
            have hK0 : ∀ y w1 w2, alookup st.views y = some w1 →
                alookup (aupdate st.views x uF) y = some w2 →
                unitChildren w2 = unitChildren w1 ∧ w2.isViewUnit = w1.isViewUnit := by
              intro y w1 w2 h1 h2
              rw [hV1 y] at h2
              by_cases hxy : x = y
              · rw [if_pos hxy] at h2
                rw [← hxy, hl] at h1
                injection h1 with h1
                injection h2 with h2
                subst h1
                subst h2
                exact ⟨rfl, rfl⟩
              · rw [if_neg hxy] at h2
                rw [h1] at h2
                injection h2 with h2
                subst h2
                exact ⟨rfl, rfl⟩
            have transferUp : ∀ cx y, Reach st.views cx y →
                Reach (aupdate st.views x uF) cx y :=
              reach_transfer st.views (aupdate st.views x uF) hD0 hK0
            have transferDown : ∀ cx y, Reach (aupdate st.views x uF) cx y →
                Reach st.views cx y := by
              refine reach_transfer (aupdate st.views x uF) st.views
                (fun y => (hD0 y).symm) ?_
              intro y w1 w2 h1 h2
              obtain ⟨hch, hv⟩ := hK0 y w2 w1 h2 h1
              exact ⟨hch.symm, hv.symm⟩
            have hU2name : u2.fnName = some F := by
              refine hN2' x uF F ?_ rfl u2 hlook2
              rw [hV1 x, if_pos rfl]
            have hU2skel := hK2' x uF u2 (by rw [hV1 x, if_pos rfl]) hlook2
            have hOps3ch : ops3.flatMap opChildren = u.ops.flatMap opChildren :=
              (backfillOps_children r.2.1 r.2.2 ops3 hbf).trans hch2'
            have hV2 : ∀ y, alookup (aupdate r.1.views x u3) y
                = if x = y then some u3 else alookup r.1.views y := by
              intro y
              rw [alookup_aupdate]
              by_cases hxy : x = y
              · rw [if_pos hxy, if_pos hxy, hlook2]
                rfl
              · rw [if_neg hxy, if_neg hxy]
            refine ⟨?_, ?_, ?_, ?_, ?_, ?_⟩
            · intro y
              rw [hviews, hV2 y]
              by_cases hxy : x = y
              · rw [if_pos hxy, ← hxy, hl]
                rfl
              · rw [if_neg hxy]
                exact (hD2' y).trans (hD0 y)
            · intro y w1 w4 h1 h4
              rw [hviews, hV2 y] at h4
              by_cases hxy : x = y
              · rw [if_pos hxy] at h4
                rw [← hxy, hl] at h1
                injection h1 with h1
                injection h4 with h4
                subst h1
                subst h4
                constructor
                · show ops3.flatMap opChildren = unitChildren u
                  rw [hOps3ch]
                  rfl
                · exact hU2skel.2
              · rw [if_neg hxy] at h4
                have hv1 : alookup (aupdate st.views x uF) y = some w1 := by
                  rw [hV1 y, if_neg hxy]
                  exact h1
                exact hK2' y w1 w4 hv1 h4
            · intro y w1 g h1 hg w4 h4
              rw [hviews, hV2 y] at h4
              by_cases hxy : x = y
              · rw [if_pos hxy] at h4
                rw [← hxy, hl] at h1
                injection h1 with h1
                subst h1
                injection h4 with h4
                subst h4
                show u2.fnName = some g
                rw [hU2name, hF, hg]
              · rw [if_neg hxy] at h4
                have hv1 : alookup (aupdate st.views x uF) y = some w1 := by
                  rw [hV1 y, if_neg hxy]
                  exact h1
                exact hN2' y w1 g hv1 hg w4 h4
            · intro w1 h1
              injection h1 with h1'
              subst h1'
              refine ⟨u3, ?_, ?_⟩
              · rw [hviews, hV2 x, if_pos rfl]
              · show u2.fnName = some _
                rw [hU2name, hF]
            · intro y hnr
              have hyx : ¬ x = y := fun hh => hnr (by rw [← hh]; exact Reach.refl x)
              rw [hviews, hV2 y, if_neg hyx]
              have hstep : ∀ cx ∈ u.ops.flatMap opChildren,
                  ¬ Reach (aupdate st.views x uF) cx y := by
                intro cx hcx hcon
                exact hnr (Reach.step hl hcx (transferDown cx y hcon))
              rw [hL2' y hstep, hV1 y, if_neg hyx]
            · intro y hreach
              cases hreach with
              | refl =>
                refine ⟨u3, ?_, ?_⟩
                · rw [hviews, hV2 x, if_pos rfl]
                · show (u2.fnName).isSome = true
                  rw [hU2name]
                  rfl
              | step hu hc hr =>
                rename_i yy uu
                have huu : uu = u := by
                  rw [hl] at hu
                  injection hu with hu
                  exact hu.symm
                subst huu
                obtain ⟨u4, h4, h4s⟩ := hR2' yy hc y (transferUp yy y hr)
                by_cases hxy : x = y
                · refine ⟨u3, ?_, ?_⟩
                  · rw [hviews, hV2 y, if_pos hxy]
                  · show (u2.fnName).isSome = true
                    rw [hU2name]
                    rfl
                · refine ⟨u4, ?_, h4s⟩
                  rw [hviews, hV2 y, if_neg hxy]
                  exact h4

/-- C7, counterexample: the pass completes on `jobOrphan`, names the
root, but leaves the unit that no `Template` or `RepeaterCreate` op
refers to with a null function name — so not every unit of the job ends
with a non-null function name. -/
theorem c7_orphan_unnamed :
    phaseNaming 4 jobOrphan = .ok jobOrphanOut ∧
    (alookup jobOrphanOut.views 1).map CompilationUnit.fnName = some none ∧
    (alookup jobOrphanOut.views 0).map CompilationUnit.fnName
      = some (some "Comp_Template") :=
  ⟨rfl, rfl, rfl⟩

/-- C7 (amended): for every job on which the pass completes, (i) the
root, when present, ends with its old function name if it had one and
with `sanitizeIdentifier (componentName ++ "_" ++ fnSuffix)` otherwise;
(ii) every unit reachable from the root through `Template` /
`RepeaterCreate` references ends with a non-null function name; (iii) an
already-set function name is never overwritten; (iv) units not reachable
from the root are untouched (and may keep a null name — the original
claim fails for them); and (v) if the pass is run a second time on the
result and completes, every unit's function name is unchanged. -/
theorem c7_fn_names (fuel : Nat) (job job' : CompilationJob)
    (h : phaseNaming fuel job = .ok job') :
    (∀ u, alookup job.views job.rootXref = some u →
      ∃ u', alookup job'.views job.rootXref = some u' ∧
        u'.fnName = some (match u.fnName with
          | some f0 => f0
          | none => sanitizeIdentifier (job.componentName ++ "_" ++ job.fnSuffix))) ∧
    (∀ y, Reach job.views job.rootXref y →
      ∃ u', alookup job'.views y = some u' ∧ u'.fnName.isSome = true) ∧
    (∀ y u g, alookup job.views y = some u → u.fnName = some g →
      ∀ u', alookup job'.views y = some u' → u'.fnName = some g) ∧
    (∀ y, ¬ Reach job.views job.rootXref y →
      alookup job'.views y = alookup job.views y) ∧
    (∀ job'', phaseNaming fuel job' = .ok job'' →
      ∀ y, (alookup job''.views y).map CompilationUnit.fnName
        = (alookup job'.views y).map CompilationUnit.fnName) := by
  rw [phaseNaming] at h
  cases ha : addNamesToView fuel { views := job.views, index := 0 } job.rootXref
      job.componentName job.fnSuffix job.compatibility with
  | error msg => simp [ha] at h
  | ok stf =>
    simp only [ha] at h
    injection h with h
    have hviews : job'.views = stf.views := by
      rw [← h]
    have hroot : job'.rootXref = job.rootXref := by
      rw [← h]
    obtain ⟨hD, hK, hN1, hN2, hL, hR⟩ :=
      addNamesToView_good job.fnSuffix job.compatibility fuel
        { views := job.views, index := 0 } job.rootXref job.componentName stf ha
    have hD' : ∀ y, (alookup stf.views y).isSome = (alookup job.views y).isSome := hD
    have hK' : ∀ y u1 u2, alookup job.views y = some u1 → alookup stf.views y = some u2 →
        unitChildren u2 = unitChildren u1 ∧ u2.isViewUnit = u1.isViewUnit := hK
    have hN1' : ∀ y u1 g, alookup job.views y = some u1 → u1.fnName = some g →
        ∀ u2, alookup stf.views y = some u2 → u2.fnName = some g := hN1
    have hN2' : ∀ u1, alookup job.views job.rootXref = some u1 →
        ∃ u2, alookup stf.views job.rootXref = some u2 ∧
          u2.fnName = some (match u1.fnName with
            | some f0 => f0
            | none => sanitizeIdentifier (job.componentName ++ "_" ++ job.fnSuffix)) := hN2
    have hL' : ∀ y, ¬ Reach job.views job.rootXref y →
        alookup stf.views y = alookup job.views y := hL
    have hR' : ∀ y, Reach job.views job.rootXref y →
        ∃ u2, alookup stf.views y = some u2 ∧ u2.fnName.isSome = true := hR
    refine ⟨?_, ?_, ?_, ?_, ?_⟩
    · intro u hu
      rw [hviews]
      exact hN2' u hu
    · intro y hy
      rw [hviews]
      exact hR' y hy
    · intro y u g hu hg u' hu'
      rw [hviews] at hu'
      exact hN1' y u g hu hg u' hu'
    · intro y hy
      rw [hviews]
      exact hL' y hy
    · intro job'' h2 y
      rw [phaseNaming] at h2
      cases ha2 : addNamesToView fuel { views := job'.views, index := 0 } job'.rootXref
          job'.componentName job'.fnSuffix job'.compatibility with
      | error msg => simp [ha2] at h2
      | ok stf2 =>
        simp only [ha2] at h2
        injection h2 with h2
        have hviews2 : job''.views = stf2.views := by
          rw [← h2]
        obtain ⟨hD2, hK2, hN12, hN22, hL2, hR2⟩ :=
          addNamesToView_good job'.fnSuffix job'.compatibility fuel
            { views := job'.views, index := 0 } job'.rootXref job'.componentName stf2 ha2
        have hD2' : ∀ z, (alookup stf2.views z).isSome = (alookup job'.views z).isSome := hD2
        have hN12' : ∀ z u1 g, alookup job'.views z = some u1 → u1.fnName = some g →
            ∀ u2, alookup stf2.views z = some u2 → u2.fnName = some g := hN12
        have hL2' : ∀ z, ¬ Reach job'.views job'.rootXref z →
            alookup stf2.views z = alookup job'.views z := hL2
        have transferRun1Down : ∀ c z, Reach stf.views c z → Reach job.views c z := by
          refine reach_transfer stf.views job.views (fun z => (hD' z).symm) ?_
          intro z w1 w2 h1 h2w
          obtain ⟨hch, hv⟩ := hK' z w2 w1 h2w h1
          exact ⟨hch.symm, hv.symm⟩
        rw [hviews2]
        cases hy : alookup job'.views y with
        | none =>
          have hnone : alookup stf2.views y = none := by
            have hiso := hD2' y
            rw [hy] at hiso
            cases hcase : alookup stf2.views y with
            | none => rfl
            | some w =>
              rw [hcase] at hiso
              simp at hiso
          rw [hnone]
        | some u' =>
          cases hfn : u'.fnName with
          | some g =>
            have hsome2 : (alookup stf2.views y).isSome = true := by
              rw [hD2' y, hy]
              rfl
            rcases Option.isSome_iff_exists.mp hsome2 with ⟨u'', hu''⟩
            have hg2 := hN12' y u' g hy hfn u'' hu''
            rw [hu'']
            show some u''.fnName = some u'.fnName
            rw [hg2, hfn]
          | none =>
            have hnr : ¬ Reach job'.views job'.rootXref y := by
              intro hre
              have hre1 : Reach job.views job.rootXref y := by
                refine transferRun1Down job.rootXref y ?_
                rw [← hviews, ← hroot]
                exact hre
              obtain ⟨u'', h'', hsome''⟩ := hR' y hre1
              rw [← hviews, hy] at h''
              injection h'' with h''
              rw [← h''] at hsome''
              rw [hfn] at hsome''
              cases hsome''
            rw [hL2' y hnr, hy]

/-- C7, witness: the amended theorem applied to the concrete two-unit
job, showing the root (trivially reachable) ends up named. -/
theorem c7_fn_names_holds :
    phaseNaming 4 jobOrphan = .ok jobOrphanOut ∧
    (∃ u', alookup jobOrphanOut.views 0 = some u' ∧ u'.fnName.isSome = true) :=
  ⟨rfl, (c7_fn_names 4 jobOrphan jobOrphanOut rfl).2.1 0 (Reach.refl 0)⟩
